import Mathlib

/-!
Verification of the image tile rearranger (`qualifier.py`).

The source program is embedded shallowly:

* Python integers are `ℕ` (orderings are sequences of non-negative integers,
  per the spec's external-interface section), with exact arithmetic.
* Python's true division `a / b` on integers produces an IEEE binary64 value.
  CPython computes the correctly rounded quotient, so we model a binary64
  value by the exact rational it denotes, and division/multiplication by
  rounding the exact rational result to 53 significant bits with
  round-to-nearest, ties-to-even (`roundFloat`).  A division whose rounded
  result reaches `2 ^ 1024` raises `OverflowError` in CPython; a float
  multiplication that reaches `2 ^ 1024` silently overflows to `inf`, and
  `inf == n` is `False` for every integer `n`.  Both behaviours are modelled.
* `int(x)` on a non-negative float is truncation (`pyTrunc`).
* A PIL image is modelled as `Img`: a colour mode, a pixel size, and a total
  pixel function.  `crop` pads out-of-bounds pixels with 0 as PIL does,
  `paste` writes the tile's rectangle, and `Image.new` zero-fills.
* Raising an exception is modelled with `Except`: `rearrange_tiles` returns
  `.error e` when the Python code raises, and `.ok out` where `out` is the
  image saved to `out_path`; on an error nothing is written.
-/

/-! ## The binary64 model -/

/-- Fuel-driven base-2 logarithm on `ℕ` (structural, so it computes in the
kernel). `log2A fuel n = ⌊log₂ n⌋` whenever `n ≤ 2 ^ fuel` roughly; the fuel
`n` used by `natLog2` always suffices. -/
def log2A : ℕ → ℕ → ℕ
  | 0, _ => 0
  | fuel + 1, n => if n < 2 then 0 else log2A fuel (n / 2) + 1

/-- The value `⌊log₂ n⌋` for `n ≥ 1` (and `0` at `0`). -/
def natLog2 (n : ℕ) : ℕ := log2A n n

/-- The value `⌊log₂ q⌋` for a positive rational `q`, as an integer (negative when
`q < 1`). -/
def log2floorQ (q : ℚ) : ℤ :=
  let a := q.num.toNat
  let b := q.den
  if b * 2 ^ natLog2 a ≤ a * 2 ^ natLog2 b then (natLog2 a : ℤ) - natLog2 b
  else ((natLog2 a : ℤ) - natLog2 b) - 1

/-- Round a rational to the nearest integer, ties to even. -/
def rndHalfEven (x : ℚ) : ℤ :=
  let n : ℤ := ⌊x⌋
  if x - n < 1/2 then n
  else if (1:ℚ)/2 < x - n then n + 1
  else if n % 2 = 0 then n else n + 1

/-- Round a non-negative rational to 53 significant bits, round to nearest,
ties to even: the value of the nearest IEEE binary64 (ignoring the finite
exponent range, which callers check separately against `2 ^ 1024`). -/
def roundFloat (q : ℚ) : ℚ :=
  if q ≤ 0 then 0
  else
    ((rndHalfEven (q / (2:ℚ) ^ (log2floorQ q - 52))) : ℚ) * (2:ℚ) ^ (log2floorQ q - 52)

/-- Python `int(x)` for a non-negative float: truncation. -/
def pyTrunc (q : ℚ) : ℕ := (⌊q⌋).toNat

/-- The Python exceptions the embedded code can raise. -/
inductive PyErr where
  | zeroDivision : PyErr
  | overflowError : PyErr
  | valueError : String → PyErr
deriving DecidableEq

/-- Python `a / b` on non-negative integers: the correctly rounded binary64
quotient, `ZeroDivisionError` on `b = 0`, `OverflowError` when the rounded
result reaches `2 ^ 1024`. -/
def floatDivNat (a b : ℕ) : Except PyErr ℚ :=
  if b = 0 then .error .zeroDivision
  else
    let r := roundFloat ((a : ℚ) / (b : ℚ))
    if (2:ℚ) ^ (1024:ℕ) ≤ r then .error .overflowError else .ok r

/-- The third element of the list built by `valid_input`:
`(image_width / tile_width) * (image_height / tile_height) == len(ordering)`,
with both divisions in float arithmetic.  A float product that overflows is
`inf`, which compares unequal to every integer, hence `false`. -/
def floatCountCheck (w tw h th len : ℕ) : Except PyErr Bool :=
  match floatDivNat w tw with
  | .error e => .error e
  | .ok qx =>
    match floatDivNat h th with
    | .error e => .error e
    | .ok qy =>
      let p := roundFloat (qx * qy)
      .ok (if (2:ℚ) ^ (1024:ℕ) ≤ p then false else decide (p = (len : ℚ)))

/-- Embedding of `valid_input(image_size, tile_size, ordering)` from `qualifier.py`.
Python builds the four-element list eagerly and then applies `all`, so the
division-based third check runs (and can raise) even when the first two
checks are already false; `x % 0` raises `ZeroDivisionError` before the float
division is reached when a tile component is zero.  `len(set(ordering))` is
the number of distinct values, `ordering.dedup.length`. -/
def valid_input (image_size : ℕ × ℕ) (tile_size : ℕ × ℕ) (ordering : List ℕ) :
    Except PyErr Bool :=
  if tile_size.1 = 0 then .error .zeroDivision
  else if tile_size.2 = 0 then .error .zeroDivision
  else
    match floatCountCheck image_size.1 tile_size.1 image_size.2 tile_size.2
        ordering.length with
    | .error e => .error e
    | .ok c =>
      .ok ((decide (image_size.1 % tile_size.1 = 0) &&
            decide (image_size.2 % tile_size.2 = 0)) && c &&
           decide (ordering.length = ordering.dedup.length))

/-! ## The image model -/

/-- A decoded raster image: colour mode, pixel size, pixel contents.  Pixels
outside the size are irrelevant; image equality is compared with `Img.pixEq`
on the in-bounds region. -/
structure Img where
  mode : ℕ
  width : ℕ
  height : ℕ
  px : ℕ → ℕ → ℕ

/-- A fixed default image (used only as the default of `List.getD`). -/
def dImg : Img := ⟨0, 0, 0, fun _ _ => 0⟩

/-- PIL `Image.new(mode, (w, h))`: a zero-initialised blank image. -/
def Img.new (mode w h : ℕ) : Img := ⟨mode, w, h, fun _ _ => 0⟩

/-- PIL `im.crop((l, t, r, b))`: the `(r - l) × (b - t)` sub-image whose pixel
`(x, y)` is `im`'s pixel `(l + x, t + y)`, zero-padded where that lies
outside `im` (PIL pads out-of-range crop regions with black). -/
def Img.crop (im : Img) (l t r b : ℕ) : Img :=
  ⟨im.mode, r - l, b - t, fun x y =>
    if l + x < im.width ∧ t + y < im.height then im.px (l + x) (t + y) else 0⟩

/-- Does the paste of tile `t` at offset `o` write the pixel `(x, y)`? -/
def coveredB (t : Img) (o : ℕ × ℕ) (x y : ℕ) : Bool :=
  decide (o.1 ≤ x ∧ x < o.1 + t.width ∧ o.2 ≤ y ∧ y < o.2 + t.height)

/-- PIL `dst.paste(tile, (ox, oy))`: overwrite the tile-sized rectangle at
`(ox, oy)` with the tile's pixels (no blending). -/
def Img.paste (dst tile : Img) (ox oy : ℕ) : Img :=
  ⟨dst.mode, dst.width, dst.height, fun x y =>
    if coveredB tile (ox, oy) x y then tile.px (x - ox) (y - oy) else dst.px x y⟩

/-- Pixel-for-pixel equality: same pixel dimensions and the same pixel values
everywhere in bounds. -/
def Img.pixEq (a b : Img) : Prop :=
  a.width = b.width ∧ a.height = b.height ∧
    ∀ x, x < a.width → ∀ y, y < a.height → a.px x y = b.px x y

/-- The crop box computed by `extract_tile`:
`row_index = int(tile_index / tiles_by_row)` (float division, truncated),
`col_index = tile_index % tiles_by_row`, and the box
`(left, top, right, bottom)` built from them. -/
def extractRect (tile_size : ℕ × ℕ) (tile_index tiles_by_row : ℕ) :
    ℕ × ℕ × ℕ × ℕ :=
  let row_index := pyTrunc (roundFloat ((tile_index : ℚ) / (tiles_by_row : ℚ)))
  let col_index := tile_index % tiles_by_row
  (col_index * tile_size.1, row_index * tile_size.2,
   col_index * tile_size.1 + tile_size.1, row_index * tile_size.2 + tile_size.2)

/-- Embedding of `extract_tile(im, tile_size, tile_index, tiles_by_row)` from
`qualifier.py`: crop the computed box out of `im`. -/
def extract_tile (im : Img) (tile_size : ℕ × ℕ) (tile_index tiles_by_row : ℕ) :
    Img :=
  let r := extractRect tile_size tile_index tiles_by_row
  im.crop r.1 r.2.1 r.2.2.1 r.2.2.2

/-- The paste loop of `recompose_image`, generic in how the paste offset of
the tile at sequence position `i` is computed from `i` and the tile. -/
def pasteLoop (off : ℕ → Img → ℕ × ℕ) : Img → List Img → ℕ → Img
  | acc, [], _ => acc
  | acc, t :: rest, i => pasteLoop off (acc.paste t (off i t).1 (off i t).2) rest (i + 1)

/-- The offset used by the source's `recompose_image` for the tile at
sequence position `i`: `row_index = int(i / tiles_by_row)` (float division,
truncated), `col_index = i % tiles_by_row`, offset
`(col_index * tile_width, row_index * tile_height)` with the tile's own
size. -/
def codeOff (tiles_by_row : ℕ) (i : ℕ) (t : Img) : ℕ × ℕ :=
  ((i % tiles_by_row) * t.width,
   pyTrunc (roundFloat ((i : ℚ) / (tiles_by_row : ℚ))) * t.height)

/-- Offset described by the spec's recomposer contract, with exact integer
`div`/`mod` (`row = i div tiles_per_row`, `col = i mod tiles_per_row`). -/
def specOff (tiles_by_row : ℕ) (i : ℕ) (t : Img) : ℕ × ℕ :=
  ((i % tiles_by_row) * t.width, (i / tiles_by_row) * t.height)

/-- Embedding of `recompose_image(src_image, tiles, tiles_by_row)` from `qualifier.py`:
start from `Image.new(src_image.mode, src_image.size)` and paste each tile at
the offset computed from its sequence position. -/
def recompose_image (src_image : Img) (tiles : List Img) (tiles_by_row : ℕ) :
    Img :=
  pasteLoop (codeOff tiles_by_row)
    (Img.new src_image.mode src_image.width src_image.height) tiles 0

/-- The recomposer as described by the spec's words (section 4.3), identical
except that `row = i div tiles_per_row` is exact integer division.  Used to
compare the source against the spec's formula. -/
def recomposeSpec (src_image : Img) (tiles : List Img) (tiles_by_row : ℕ) :
    Img :=
  pasteLoop (specOff tiles_by_row)
    (Img.new src_image.mode src_image.width src_image.height) tiles 0

/-- The exact message of the error raised by `rearrange_tiles` on invalid
input. -/
def invalidMsg : String := "The tile size or ordering are not valid for the given image"

/-- Embedding of `rearrange_tiles(image_path, tile_size, ordering, out_path)` from
`qualifier.py`.  The argument `image` is the decoded image at `image_path`;
the result `.ok out` is the image saved to `out_path`, and `.error e` means
the Python call raises `e` and writes nothing.  Steps, in source order:
validate (raising `ValueError(invalidMsg)` on a `False` validation),
`x_tiles_count = int(image_width / tile_width)` (float division), extract
one tile per entry of `ordering`, recompose, save. -/
def rearrange_tiles (image : Img) (tile_size : ℕ × ℕ) (ordering : List ℕ) :
    Except PyErr Img :=
  match valid_input (image.width, image.height) tile_size ordering with
  | .error e => .error e
  | .ok false => .error (.valueError invalidMsg)
  | .ok true =>
    match floatDivNat image.width tile_size.1 with
    | .error e => .error e
    | .ok q =>
      let x_tiles_count := pyTrunc q
      let tiles := ordering.map fun tile_index =>
        extract_tile image tile_size tile_index x_tiles_count
      .ok (recompose_image image tiles x_tiles_count)

/-- The grid cell containing pixel `(x, y)`, in row-major order:
`(y div tile_height) * tiles_per_row + (x div tile_width)`. -/
def tileOfPx (tile_size : ℕ × ℕ) (tiles_by_row x y : ℕ) : ℕ :=
  (y / tile_size.2) * tiles_by_row + x / tile_size.1

/-! ## Facts about the binary64 model -/

theorem log2A_spec : ∀ fuel n, n ≤ fuel → 1 ≤ n →
    2 ^ log2A fuel n ≤ n ∧ n < 2 ^ (log2A fuel n + 1) := by
  intro fuel
  induction fuel with
  | zero => intro n h1 h2; omega
  | succ f ih =>
    intro n hle h1
    rw [log2A]
    by_cases h2 : n < 2
    · rw [if_pos h2]; simpa using by omega
    · rw [if_neg h2]
      have hrec := ih (n / 2) (by omega) (by omega)
      rcases hrec with ⟨hl, hr⟩
      constructor
      · calc 2 ^ (log2A f (n / 2) + 1) = 2 * 2 ^ log2A f (n / 2) := by ring
        _ ≤ 2 * (n / 2) := by omega
        _ ≤ n := by omega
      · have : n < 2 * 2 ^ (log2A f (n / 2) + 1) := by omega
        calc n < 2 * 2 ^ (log2A f (n / 2) + 1) := this
        _ = 2 ^ (log2A f (n / 2) + 1 + 1) := by ring
  
theorem natLog2_spec (n : ℕ) (h : 1 ≤ n) :
    2 ^ natLog2 n ≤ n ∧ n < 2 ^ (natLog2 n + 1) :=
  log2A_spec n n le_rfl h

theorem log2floorQ_spec (q : ℚ) (hq : 0 < q) :
    (2:ℚ) ^ log2floorQ q ≤ q ∧ q < (2:ℚ) ^ (log2floorQ q + 1) := by
  have hnum : 0 < q.num := Rat.num_pos.mpr hq
  set a : ℕ := q.num.toNat with ha_def
  set b : ℕ := q.den with hb_def
  have ha1 : 1 ≤ a := by omega
  have hb1 : 1 ≤ b := q.den_pos
  have hnum' : (q.num : ℚ) = (a : ℚ) := by
    rw [ha_def]; exact_mod_cast (congrArg (Int.cast : ℤ → ℚ)
      (Int.toNat_of_nonneg hnum.le)).symm
  have hqab : q = (a : ℚ) / (b : ℚ) := by
    rw [← hnum', hb_def]
    exact (Rat.num_div_den q).symm
  have hA := natLog2_spec a ha1
  have hB := natLog2_spec b hb1
  set la := natLog2 a
  set lb := natLog2 b
  have hbq : (0:ℚ) < (b:ℚ) := by exact_mod_cast hb1
  have haq : (0:ℚ) < (a:ℚ) := by exact_mod_cast ha1
  rw [log2floorQ]
  simp only [← ha_def, ← hb_def]
  by_cases hc : b * 2 ^ la ≤ a * 2 ^ lb
  · rw [if_pos hc]
    constructor
    · rw [hqab, zpow_sub₀ (by norm_num : (2:ℚ) ≠ 0), zpow_natCast, zpow_natCast,
        div_le_div_iff (by positivity) hbq]
      calc (2:ℚ) ^ la * b = (b * 2 ^ la : ℕ) := by push_cast; ring
        _ ≤ (a * 2 ^ lb : ℕ) := by exact_mod_cast hc
        _ = (a : ℚ) * 2 ^ lb := by push_cast; ring
    · have he : (la : ℤ) - lb + 1 = ((la + 1 : ℕ) : ℤ) - lb := by push_cast; ring
      rw [hqab, he, zpow_sub₀ (by norm_num : (2:ℚ) ≠ 0), zpow_natCast, zpow_natCast,
        div_lt_div_iff hbq (by positivity)]
      have h1 : (a:ℚ) < 2 ^ (la + 1) := by exact_mod_cast hA.2
      have h2 : (2:ℚ) ^ lb ≤ b := by exact_mod_cast hB.1
      calc (a:ℚ) * 2 ^ lb < 2 ^ (la + 1) * 2 ^ lb := by
            exact mul_lt_mul_of_pos_right h1 (by positivity)
        _ ≤ 2 ^ (la + 1) * b := by
            exact mul_le_mul_of_nonneg_left h2 (by positivity)
  · rw [if_neg hc]
    push_neg at hc
    constructor
    · have he : (la : ℤ) - lb - 1 = (la : ℤ) - ((lb + 1 : ℕ) : ℤ) := by push_cast; ring
      rw [hqab, he, zpow_sub₀ (by norm_num : (2:ℚ) ≠ 0), zpow_natCast, zpow_natCast,
        div_le_div_iff (by positivity) hbq]
      have h1 : (2:ℚ) ^ la ≤ a := by exact_mod_cast hA.1
      have h2 : (b:ℚ) ≤ 2 ^ (lb + 1) := by exact_mod_cast hB.2.le
      calc (2:ℚ) ^ la * b ≤ (a:ℚ) * b := by
            exact mul_le_mul_of_nonneg_right h1 hbq.le
        _ ≤ (a:ℚ) * 2 ^ (lb + 1) := by
            exact mul_le_mul_of_nonneg_left h2 haq.le
    · have he : (la : ℤ) - lb - 1 + 1 = (la : ℤ) - lb := by ring
      rw [hqab, he, zpow_sub₀ (by norm_num : (2:ℚ) ≠ 0), zpow_natCast, zpow_natCast,
        div_lt_div_iff hbq (by positivity)]
      calc (a:ℚ) * 2 ^ lb = (a * 2 ^ lb : ℕ) := by push_cast; ring
        _ < (b * 2 ^ la : ℕ) := by exact_mod_cast hc
        _ = (2:ℚ) ^ la * b := by push_cast; ring

theorem log2floorQ_unique (q : ℚ) (hq : 0 < q) (d : ℤ)
    (h1 : (2:ℚ) ^ d ≤ q) (h2 : q < (2:ℚ) ^ (d + 1)) : log2floorQ q = d := by
  rcases log2floorQ_spec q hq with ⟨g1, g2⟩
  by_contra hne
  rcases lt_or_gt_of_ne hne with hlt | hgt
  · have : (2:ℚ) ^ (log2floorQ q + 1) ≤ 2 ^ d :=
      zpow_le_zpow_right₀ one_le_two (by omega)
    linarith
  · have : (2:ℚ) ^ (d + 1) ≤ 2 ^ log2floorQ q :=
      zpow_le_zpow_right₀ one_le_two (by omega)
    linarith

theorem rndHalfEven_ge_floor (x : ℚ) : ⌊x⌋ ≤ rndHalfEven x := by
  rw [rndHalfEven]
  split_ifs <;> omega

theorem rndHalfEven_le_floor_add_one (x : ℚ) : rndHalfEven x ≤ ⌊x⌋ + 1 := by
  rw [rndHalfEven]
  split_ifs <;> omega

theorem rndHalfEven_half_le (x : ℚ) (h : rndHalfEven x = ⌊x⌋ + 1) :
    (1:ℚ)/2 ≤ x - ⌊x⌋ := by
  rw [rndHalfEven] at h
  split_ifs at h with h1 h2 h3
  · omega
  · linarith
  · omega
  · linarith [not_lt.mp h1]

theorem rndHalfEven_intCast (n : ℤ) : rndHalfEven ((n : ℤ) : ℚ) = n := by
  rw [rndHalfEven]
  simp [Int.floor_intCast]

theorem roundFloat_pos_def (q : ℚ) (hq : 0 < q) :
    roundFloat q =
      ((rndHalfEven (q / (2:ℚ) ^ (log2floorQ q - 52))) : ℚ) *
        (2:ℚ) ^ (log2floorQ q - 52) := by
  rw [roundFloat, if_neg (not_le.mpr hq)]

theorem scaled_lb (q : ℚ) (hq : 0 < q) :
    (2:ℚ) ^ (52 : ℤ) ≤ q / (2:ℚ) ^ (log2floorQ q - 52) := by
  rw [le_div_iff (zpow_pos (by norm_num) _), ← zpow_add₀ (by norm_num : (2:ℚ) ≠ 0)]
  have : (52 : ℤ) + (log2floorQ q - 52) = log2floorQ q := by ring
  rw [this]
  exact (log2floorQ_spec q hq).1

theorem scaled_ub (q : ℚ) (hq : 0 < q) :
    q / (2:ℚ) ^ (log2floorQ q - 52) < (2:ℚ) ^ (53 : ℤ) := by
  rw [div_lt_iff (zpow_pos (by norm_num) _), ← zpow_add₀ (by norm_num : (2:ℚ) ≠ 0)]
  have : (53 : ℤ) + (log2floorQ q - 52) = log2floorQ q + 1 := by ring
  rw [this]
  exact (log2floorQ_spec q hq).2

theorem roundFloat_nonneg (q : ℚ) : 0 ≤ roundFloat q := by
  rw [roundFloat]
  split_ifs with h
  · exact le_refl 0
  · push_neg at h
    have hsp : (0:ℚ) < q / (2:ℚ) ^ (log2floorQ q - 52) :=
      div_pos h (zpow_pos (by norm_num) _)
    have hf : (0:ℤ) ≤ ⌊q / (2:ℚ) ^ (log2floorQ q - 52)⌋ :=
      Int.floor_nonneg.mpr hsp.le
    have hm : (0:ℤ) ≤ rndHalfEven (q / (2:ℚ) ^ (log2floorQ q - 52)) :=
      le_trans hf (rndHalfEven_ge_floor _)
    exact mul_nonneg (by exact_mod_cast hm) (zpow_pos (by norm_num : (0:ℚ) < 2) _).le

theorem roundFloat_lower (q : ℚ) (hq : 0 < q) :
    (2:ℚ) ^ log2floorQ q ≤ roundFloat q := by
  rw [roundFloat_pos_def q hq]
  set s := q / (2:ℚ) ^ (log2floorQ q - 52) with hs
  have h1 : ((2:ℤ) ^ (52:ℕ) : ℤ) ≤ ⌊s⌋ := by
    rw [Int.le_floor]
    calc (((2:ℤ) ^ (52:ℕ) : ℤ) : ℚ) = (2:ℚ) ^ (52:ℤ) := by push_cast; norm_num
      _ ≤ s := scaled_lb q hq
  have h2 : ((2:ℤ) ^ (52:ℕ) : ℤ) ≤ rndHalfEven s := le_trans h1 (rndHalfEven_ge_floor s)
  calc (2:ℚ) ^ log2floorQ q = (2:ℚ) ^ (52:ℤ) * (2:ℚ) ^ (log2floorQ q - 52) := by
        rw [← zpow_add₀ (by norm_num : (2:ℚ) ≠ 0)]; congr 1; ring
    _ ≤ (rndHalfEven s : ℚ) * (2:ℚ) ^ (log2floorQ q - 52) := by
        have : ((2:ℚ) ^ (52:ℤ)) ≤ (rndHalfEven s : ℚ) := by
          calc ((2:ℚ) ^ (52:ℤ)) = (((2:ℤ) ^ (52:ℕ) : ℤ) : ℚ) := by push_cast; norm_num
            _ ≤ (rndHalfEven s : ℚ) := by exact_mod_cast h2
        exact mul_le_mul_of_nonneg_right this (zpow_pos (by norm_num : (0:ℚ) < 2) _).le

theorem roundFloat_upper (q : ℚ) (hq : 0 < q) :
    roundFloat q ≤ (2:ℚ) ^ (log2floorQ q + 1) := by
  rw [roundFloat_pos_def q hq]
  set s := q / (2:ℚ) ^ (log2floorQ q - 52) with hs
  have h1 : ⌊s⌋ < ((2:ℤ) ^ (53:ℕ) : ℤ) := by
    rw [Int.floor_lt]
    calc s < (2:ℚ) ^ (53:ℤ) := scaled_ub q hq
      _ = (((2:ℤ) ^ (53:ℕ) : ℤ) : ℚ) := by push_cast; norm_num
  have h2 : rndHalfEven s ≤ ((2:ℤ) ^ (53:ℕ) : ℤ) :=
    le_trans (rndHalfEven_le_floor_add_one s) (by omega)
  calc (rndHalfEven s : ℚ) * (2:ℚ) ^ (log2floorQ q - 52)
      ≤ (2:ℚ) ^ (53:ℤ) * (2:ℚ) ^ (log2floorQ q - 52) := by
        have : (rndHalfEven s : ℚ) ≤ (2:ℚ) ^ (53:ℤ) := by
          calc (rndHalfEven s : ℚ) ≤ (((2:ℤ) ^ (53:ℕ) : ℤ) : ℚ) := by exact_mod_cast h2
            _ = (2:ℚ) ^ (53:ℤ) := by push_cast; norm_num
        exact mul_le_mul_of_nonneg_right this (zpow_pos (by norm_num : (0:ℚ) < 2) _).le
    _ = (2:ℚ) ^ (log2floorQ q + 1) := by
        rw [← zpow_add₀ (by norm_num : (2:ℚ) ≠ 0)]; congr 1; ring

theorem log2floorQ_le_of_lt (q : ℚ) (hq : 0 < q) (c : ℤ)
    (h : q < (2:ℚ) ^ (c + 1)) : log2floorQ q ≤ c := by
  by_contra hcon
  push_neg at hcon
  have h1 : (2:ℚ) ^ (c + 1) ≤ (2:ℚ) ^ log2floorQ q :=
    zpow_le_zpow_right₀ one_le_two (by omega)
  have h2 := (log2floorQ_spec q hq).1
  linarith


theorem two_zpow_eq_pow (e : ℕ) : (2:ℚ) ^ ((e:ℕ) : ℤ) = (2:ℚ) ^ (e:ℕ) :=
  zpow_natCast 2 e

/-- The rounding `roundFloat` fixes every power of two. -/
theorem roundFloat_two_zpow (e : ℤ) : roundFloat ((2:ℚ) ^ e) = (2:ℚ) ^ e := by
  have hq : (0:ℚ) < (2:ℚ) ^ e := zpow_pos (by norm_num) e
  have hd : log2floorQ ((2:ℚ) ^ e) = e := by
    apply log2floorQ_unique _ hq
    · exact le_refl _
    · exact zpow_lt_zpow_right₀ (by norm_num) (by omega)
  rw [roundFloat_pos_def _ hq, hd]
  have hsc : (2:ℚ) ^ e / (2:ℚ) ^ (e - 52) = (((2:ℤ) ^ (52:ℕ) : ℤ) : ℚ) := by
    rw [div_eq_mul_inv, ← zpow_neg, ← zpow_add₀ (by norm_num : (2:ℚ) ≠ 0)]
    have : e + -(e - 52) = ((52:ℕ) : ℤ) := by omega
    rw [this, two_zpow_eq_pow]
    push_cast
    norm_num
  rw [hsc, rndHalfEven_intCast]
  rw [← hsc, div_mul_cancel₀]
  exact ne_of_gt (zpow_pos (by norm_num) _)

theorem roundFloat_natCast (n : ℕ) (h : n < 2 ^ 53) : roundFloat ((n : ℕ) : ℚ) = n := by
  rcases Nat.eq_zero_or_pos n with hn0 | hn1
  · subst hn0
    simp [roundFloat]
  have hq : (0:ℚ) < (n : ℚ) := by exact_mod_cast hn1
  set d : ℤ := log2floorQ ((n : ℕ) : ℚ) with hd_def
  have hcast53 : (2:ℚ) ^ (52 + 1 : ℤ) = (2:ℚ) ^ (53:ℕ) := by
    rw [show (52 + 1 : ℤ) = ((53:ℕ) : ℤ) by norm_num, two_zpow_eq_pow]
  have hd52 : d ≤ 52 := by
    apply log2floorQ_le_of_lt _ hq
    rw [hcast53]
    exact_mod_cast h
  have hd0 : 0 ≤ d := by
    by_contra hcon
    push_neg at hcon
    have h1 : (2:ℚ) ^ (d + 1) ≤ (2:ℚ) ^ (0 : ℤ) :=
      zpow_le_zpow_right₀ one_le_two (by omega)
    have h2 := (log2floorQ_spec _ hq).2
    rw [← hd_def] at h2
    have h3 : ((n:ℕ):ℚ) < 1 := by
      rw [zpow_zero] at h1; linarith
    have : (1:ℚ) ≤ ((n:ℕ):ℚ) := by exact_mod_cast hn1
    linarith
  set k : ℕ := (52 - d).toNat with hk_def
  have hk : (k : ℤ) = 52 - d := Int.toNat_of_nonneg (by omega)
  have hepow : (2:ℚ) ^ (d - 52) = ((2:ℚ) ^ (k:ℕ))⁻¹ := by
    rw [← zpow_natCast (2:ℚ) k, ← zpow_neg]
    congr 1
    omega
  have hscaled : ((n:ℕ):ℚ) / (2:ℚ) ^ (d - 52) = (((n * 2 ^ k : ℕ) : ℤ) : ℚ) := by
    rw [hepow, div_eq_mul_inv, inv_inv]
    push_cast
    ring
  rw [roundFloat_pos_def _ hq, ← hd_def, hscaled, rndHalfEven_intCast, hepow]
  push_cast
  rw [mul_assoc]
  rw [mul_inv_cancel₀ (by positivity : ((2:ℚ) ^ (k:ℕ)) ≠ 0)]
  ring

theorem roundFloat_cap (q : ℚ) (h0 : 0 ≤ q) (h : q < (2:ℚ) ^ (1023:ℕ)) :
    roundFloat q < (2:ℚ) ^ (1024:ℕ) := by
  rcases eq_or_lt_of_le h0 with h0' | h0'
  · rw [roundFloat, if_pos (le_of_eq h0'.symm)]
    positivity
  have hd : log2floorQ q ≤ 1022 := by
    apply log2floorQ_le_of_lt _ h0'
    calc q < (2:ℚ) ^ (1023:ℕ) := h
      _ = (2:ℚ) ^ (1022 + 1 : ℤ) := by
          rw [show (1022 + 1 : ℤ) = ((1023:ℕ) : ℤ) by norm_num, two_zpow_eq_pow]
  calc roundFloat q ≤ (2:ℚ) ^ (log2floorQ q + 1) := roundFloat_upper q h0'
    _ ≤ (2:ℚ) ^ (1023 : ℤ) := zpow_le_zpow_right₀ one_le_two (by omega)
    _ < (2:ℚ) ^ (1024:ℕ) := by
        rw [show (1023 : ℤ) = ((1023:ℕ) : ℤ) by norm_num, two_zpow_eq_pow]
        have : (2:ℚ) ^ (1023:ℕ) < (2:ℚ) ^ (1024:ℕ) := by
          exact pow_lt_pow_right₀ (by norm_num) (by omega)
        exact this

theorem pyTrunc_natCast (n : ℕ) : pyTrunc ((n : ℕ) : ℚ) = n := by
  rw [pyTrunc, Int.floor_natCast]
  exact Int.toNat_natCast n

/-- The key numeric fact: for `a < 2 ^ 53` the Python expression
`int(a / b)` (correctly rounded float division, then truncation) equals the
exact integer quotient `a div b`. -/
theorem pyTrunc_roundFloat_div (a b : ℕ) (hb : 0 < b) (ha : a < 2 ^ 53) :
    pyTrunc (roundFloat ((a : ℚ) / (b : ℚ))) = a / b := by
  rcases Nat.eq_zero_or_pos a with ha0 | ha1
  · subst ha0
    norm_num [roundFloat, pyTrunc]
  have hbq : (0:ℚ) < (b:ℚ) := by exact_mod_cast hb
  have haq : (0:ℚ) < (a:ℚ) := by exact_mod_cast ha1
  set q : ℚ := (a : ℚ) / (b : ℚ) with hq_def
  have hq : 0 < q := div_pos haq hbq
  set d : ℤ := log2floorQ q with hd_def
  have hqa : q ≤ (a:ℚ) := by
    rw [hq_def]
    exact div_le_self haq.le (by exact_mod_cast hb)
  have hd52 : d ≤ 52 := by
    apply log2floorQ_le_of_lt _ hq
    have h1 : ((a:ℕ) : ℚ) < (2:ℚ) ^ (53 : ℕ) := by exact_mod_cast ha
    calc q ≤ (a:ℚ) := hqa
      _ < (2:ℚ) ^ (53:ℕ) := h1
      _ = (2:ℚ) ^ (52 + 1 : ℤ) := by
          rw [show (52 + 1 : ℤ) = ((53:ℕ) : ℤ) by norm_num, two_zpow_eq_pow]
  set k : ℕ := (52 - d).toNat with hk_def
  have hk : (k : ℤ) = 52 - d := Int.toNat_of_nonneg (by omega)
  have hepow : (2:ℚ) ^ (d - 52) = ((2:ℚ) ^ (k:ℕ))⁻¹ := by
    rw [← zpow_natCast (2:ℚ) k, ← zpow_neg]
    congr 1
    omega
  have hkpos : (0:ℚ) < (2:ℚ) ^ (k:ℕ) := by positivity
  have hscaled : q / (2:ℚ) ^ (d - 52) = ((a * 2 ^ k : ℕ) : ℚ) / (b : ℚ) := by
    rw [hepow, div_eq_mul_inv, inv_inv, hq_def]
    push_cast
    ring
  set qu : ℕ := a / b with hqu_def
  have hqul : qu * b ≤ a := Nat.div_mul_le_self a b
  have hquu : a < (qu + 1) * b := by
    have h1 : b * qu + a % b = a := Nat.div_add_mod a b
    have h2 : a % b < b := Nat.mod_lt a hb
    have h3 : (qu + 1) * b = b * qu + b := by ring
    omega
  set m : ℤ := rndHalfEven (q / (2:ℚ) ^ (d - 52)) with hm_def
  have hrf : roundFloat q = (m : ℚ) / ((2:ℚ) ^ (k:ℕ)) := by
    rw [roundFloat_pos_def _ hq, ← hd_def, ← hm_def, hepow, div_eq_mul_inv]
  -- lower bound : qu ≤ roundFloat q
  have hlow : (qu : ℚ) ≤ roundFloat q := by
    have h1 : ((qu * 2 ^ k : ℕ) : ℤ) ≤ ⌊q / (2:ℚ) ^ (d - 52)⌋ := by
      rw [Int.le_floor, hscaled, le_div_iff hbq]
      have h0 : ((qu * b : ℕ) : ℚ) ≤ ((a : ℕ) : ℚ) := by exact_mod_cast hqul
      calc (((qu * 2 ^ k : ℕ) : ℤ) : ℚ) * (b:ℚ)
          = ((qu * b : ℕ) : ℚ) * ((2:ℚ) ^ (k:ℕ)) := by push_cast; ring
        _ ≤ ((a:ℕ) : ℚ) * ((2:ℚ) ^ (k:ℕ)) := by
            exact mul_le_mul_of_nonneg_right h0 hkpos.le
        _ = ((a * 2 ^ k : ℕ) : ℚ) := by push_cast; ring
    have h2 : ((qu * 2 ^ k : ℕ) : ℤ) ≤ m := le_trans h1 (rndHalfEven_ge_floor _)
    have h3 : (qu:ℚ) * (2:ℚ)^(k:ℕ) ≤ (m:ℚ) := by
      calc (qu:ℚ) * (2:ℚ)^(k:ℕ) = (((qu * 2 ^ k : ℕ) : ℤ) : ℚ) := by push_cast; ring
        _ ≤ (m:ℚ) := by exact_mod_cast h2
    rw [hrf, le_div_iff hkpos]
    exact h3
  -- upper bound : roundFloat q < qu + 1
  have hupp : roundFloat q < (qu : ℚ) + 1 := by
    by_contra hcon
    push_neg at hcon
    have hMm : (((qu + 1) * 2 ^ k : ℕ) : ℤ) ≤ m := by
      rw [hrf, le_div_iff hkpos] at hcon
      have h2 : (((qu + 1) * 2 ^ k : ℕ) : ℚ) ≤ (m : ℚ) := by
        calc (((qu + 1) * 2 ^ k : ℕ) : ℚ) = ((qu:ℚ) + 1) * (2:ℚ)^(k:ℕ) := by
              push_cast; ring
          _ ≤ (m:ℚ) := hcon
      exact_mod_cast h2
    have hsM : q / (2:ℚ) ^ (d - 52) < (((qu + 1) * 2 ^ k : ℕ) : ℚ) := by
      rw [hscaled, div_lt_iff hbq]
      have hqc : (a:ℚ) < ((qu:ℚ) + 1) * (b:ℚ) := by exact_mod_cast hquu
      have h1 : (a:ℚ) * (2:ℚ)^(k:ℕ) < ((qu:ℚ) + 1) * (b:ℚ) * (2:ℚ)^(k:ℕ) :=
        mul_lt_mul_of_pos_right hqc hkpos
      calc ((a * 2 ^ k : ℕ) : ℚ) = (a:ℚ) * (2:ℚ)^(k:ℕ) := by push_cast; ring
        _ < ((qu:ℚ) + 1) * (b:ℚ) * (2:ℚ)^(k:ℕ) := h1
        _ = (((qu + 1) * 2 ^ k : ℕ) : ℚ) * (b : ℚ) := by push_cast; ring
    have hfl : ⌊q / (2:ℚ) ^ (d - 52)⌋ < (((qu + 1) * 2 ^ k : ℕ) : ℤ) := by
      rw [Int.floor_lt]
      exact_mod_cast hsM
    have hmfl : m ≤ ⌊q / (2:ℚ) ^ (d - 52)⌋ + 1 := rndHalfEven_le_floor_add_one _
    have hmeq : m = ⌊q / (2:ℚ) ^ (d - 52)⌋ + 1 := by omega
    have hfrac : (1:ℚ)/2 ≤ q / (2:ℚ) ^ (d - 52) - ⌊q / (2:ℚ) ^ (d - 52)⌋ := by
      apply rndHalfEven_half_le
      rw [← hm_def]
      exact hmeq
    have hge : (((qu + 1) * 2 ^ k : ℕ) : ℚ) - 1/2 ≤ q / (2:ℚ) ^ (d - 52) := by
      have h1 : (⌊q / (2:ℚ) ^ (d - 52)⌋ : ℚ) = (m : ℚ) - 1 := by
        rw [hmeq]; push_cast; ring
      have h3 : (((qu + 1) * 2 ^ k : ℕ) : ℚ) ≤ (m : ℚ) := by exact_mod_cast hMm
      linarith
    have hs1 : 1 ≤ (qu + 1) * b - a := by omega
    have hkey : (2:ℚ) ^ (k + 1 : ℕ) * (((qu + 1) * b - a : ℕ) : ℚ) ≤ (b : ℚ) := by
      have h1 : ((((qu + 1) * 2 ^ k : ℕ) : ℚ) - 1/2) * (b:ℚ) ≤ ((a * 2 ^ k : ℕ) : ℚ) := by
        have h0 : (((qu + 1) * 2 ^ k : ℕ) : ℚ) - 1/2 ≤ ((a * 2 ^ k : ℕ) : ℚ) / (b : ℚ) := by
          rw [← hscaled]; exact hge
        calc ((((qu + 1) * 2 ^ k : ℕ) : ℚ) - 1/2) * (b:ℚ)
            ≤ (((a * 2 ^ k : ℕ) : ℚ) / (b : ℚ)) * (b:ℚ) :=
              mul_le_mul_of_nonneg_right h0 hbq.le
          _ = ((a * 2 ^ k : ℕ) : ℚ) := div_mul_cancel₀ _ (ne_of_gt hbq)
      have h2 : (((qu + 1) * b - a : ℕ) : ℚ) = ((qu:ℚ) + 1) * (b:ℚ) - (a:ℚ) := by
        have hle : a ≤ (qu + 1) * b := by omega
        rw [Nat.cast_sub hle]
        push_cast
        ring
      have h4 : (((qu + 1) * 2 ^ k : ℕ) : ℚ) = ((qu:ℚ) + 1) * (2:ℚ)^(k:ℕ) := by
        push_cast; ring
      have h5 : ((a * 2 ^ k : ℕ) : ℚ) = (a:ℚ) * (2:ℚ)^(k:ℕ) := by push_cast; ring
      have h6 : (2:ℚ) ^ (k + 1 : ℕ) = 2 * (2:ℚ)^(k:ℕ) := by
        rw [pow_succ]; ring
      rw [h2, h6]
      rw [h4, h5] at h1
      nlinarith [h1]
    have hq2d : (2:ℚ) ^ d * (b:ℚ) ≤ (a:ℚ) := by
      have h1 := (log2floorQ_spec q hq).1
      rw [← hd_def] at h1
      rw [hq_def, le_div_iff hbq] at h1
      exact h1
    have hfinal : (2:ℚ) ^ (53:ℕ) ≤ (a:ℚ) := by
      have h1 : (1:ℚ) ≤ (((qu + 1) * b - a : ℕ) : ℚ) := by exact_mod_cast hs1
      have hppos : (0:ℚ) < (2:ℚ) ^ (k + 1 : ℕ) := by positivity
      have h2 : (2:ℚ) ^ (k + 1 : ℕ) ≤ (b : ℚ) := by nlinarith [hkey, h1, hppos]
      have h3 : (2:ℚ) ^ d * (2:ℚ) ^ (k + 1 : ℕ) ≤ (2:ℚ) ^ d * (b:ℚ) := by
        exact mul_le_mul_of_nonneg_left h2 (zpow_pos (by norm_num : (0:ℚ) < 2) d).le
      have h4 : (2:ℚ) ^ d * (2:ℚ) ^ (k + 1 : ℕ) = (2:ℚ) ^ (53:ℕ) := by
        rw [← zpow_natCast (2:ℚ) (k+1), ← zpow_add₀ (by norm_num : (2:ℚ) ≠ 0)]
        rw [show d + ((k + 1 : ℕ) : ℤ) = ((53:ℕ) : ℤ) by push_cast; omega]
        rw [two_zpow_eq_pow]
      linarith
    have : (a:ℚ) < (2:ℚ) ^ (53:ℕ) := by exact_mod_cast ha
    linarith
  -- conclude
  have hfloor : ⌊roundFloat q⌋ = (qu : ℤ) := by
    rw [Int.floor_eq_iff]
    constructor
    · exact_mod_cast hlow
    · push_cast
      exact hupp
  rw [pyTrunc, hfloor]
  exact Int.toNat_natCast qu

/-! ## Facts about `valid_input` -/

theorem floatDivNat_dvd (a b : ℕ) (hb : b ≠ 0) (hd : b ∣ a) (hlt : a / b < 2 ^ 53) :
    floatDivNat a b = .ok ((a / b : ℕ) : ℚ) := by
  rw [floatDivNat, if_neg hb]
  have hbq : ((b:ℕ) : ℚ) ≠ 0 := Nat.cast_ne_zero.mpr hb
  have hcast : ((a:ℕ) : ℚ) / ((b:ℕ) : ℚ) = ((a / b : ℕ) : ℚ) := (Nat.cast_div hd hbq).symm
  rw [hcast, roundFloat_natCast _ hlt]
  rw [if_neg]
  push_neg
  calc ((a / b : ℕ) : ℚ) < ((2 ^ 53 : ℕ) : ℚ) := by exact_mod_cast hlt
    _ = (2:ℚ) ^ (53 : ℕ) := by push_cast; norm_num
    _ < (2:ℚ) ^ (1024:ℕ) := pow_lt_pow_right₀ (by norm_num) (by omega)

theorem cast_pow_eq (e : ℕ) : ((2 ^ e : ℕ) : ℚ) = (2:ℚ) ^ (e:ℕ) := by
  push_cast
  ring

theorem floatDivNat_ok (a b : ℕ) (hb : b ≠ 0) (ha : a < 2 ^ 1023) :
    ∃ r, floatDivNat a b = .ok r := by
  rw [floatDivNat, if_neg hb]
  have hbq : (0:ℚ) < ((b:ℕ) : ℚ) := by
    have : 0 < b := Nat.pos_of_ne_zero hb
    exact_mod_cast this
  have hqlt : ((a:ℕ) : ℚ) / ((b:ℕ) : ℚ) < (2:ℚ) ^ (1023:ℕ) := by
    calc ((a:ℕ) : ℚ) / ((b:ℕ) : ℚ) ≤ ((a:ℕ) : ℚ) :=
          div_le_self (Nat.cast_nonneg a)
            (Nat.one_le_cast.mpr (Nat.pos_of_ne_zero hb))
      _ < ((2 ^ 1023 : ℕ) : ℚ) := Nat.cast_lt.mpr ha
      _ = (2:ℚ) ^ (1023:ℕ) := cast_pow_eq 1023
  rw [if_neg (not_le.mpr (roundFloat_cap _
    (div_nonneg (Nat.cast_nonneg a) (Nat.cast_nonneg b)) hqlt))]
  exact ⟨_, rfl⟩

theorem floatCountCheck_exact (w tw h th len : ℕ) (htw : tw ≠ 0) (hth : th ≠ 0)
    (hdw : tw ∣ w) (hdh : th ∣ h) (hw0 : 0 < w) (hh0 : 0 < h)
    (hn : (w / tw) * (h / th) < 2 ^ 53) :
    floatCountCheck w tw h th len = .ok (decide ((w / tw) * (h / th) = len)) := by
  have hqx1 : 1 ≤ w / tw := (Nat.one_le_div_iff (Nat.pos_of_ne_zero htw)).mpr
    (Nat.le_of_dvd hw0 hdw)
  have hqy1 : 1 ≤ h / th := (Nat.one_le_div_iff (Nat.pos_of_ne_zero hth)).mpr
    (Nat.le_of_dvd hh0 hdh)
  have hqx : w / tw < 2 ^ 53 := by
    have : w / tw ≤ (w / tw) * (h / th) := Nat.le_mul_of_pos_right _ hqy1
    omega
  have hqy : h / th < 2 ^ 53 := by
    have : h / th ≤ (w / tw) * (h / th) := Nat.le_mul_of_pos_left _ hqx1
    omega
  rw [floatCountCheck, floatDivNat_dvd w tw htw hdw hqx,
    floatDivNat_dvd h th hth hdh hqy]
  dsimp only
  have hprod : ((w / tw : ℕ) : ℚ) * ((h / th : ℕ) : ℚ) = (((w / tw) * (h / th) : ℕ) : ℚ) := by
    push_cast; ring
  rw [hprod, roundFloat_natCast _ hn]
  have hnotovf : ¬ ((2:ℚ) ^ (1024:ℕ) ≤ (((w / tw) * (h / th) : ℕ) : ℚ)) := by
    push_neg
    calc (((w / tw) * (h / th) : ℕ) : ℚ) < ((2 ^ 53 : ℕ) : ℚ) := by exact_mod_cast hn
      _ = (2:ℚ) ^ (53:ℕ) := cast_pow_eq 53
      _ < (2:ℚ) ^ (1024:ℕ) := pow_lt_pow_right₀ (by norm_num) (by omega)
  rw [if_neg hnotovf]
  congr 1
  rw [decide_eq_decide]
  exact_mod_cast Iff.rfl

theorem floatCountCheck_ok (w tw h th len : ℕ) (htw : tw ≠ 0) (hth : th ≠ 0)
    (hw : w < 2 ^ 1023) (hh : h < 2 ^ 1023) :
    ∃ c, floatCountCheck w tw h th len = .ok c := by
  obtain ⟨r1, hr1⟩ := floatDivNat_ok w tw htw hw
  obtain ⟨r2, hr2⟩ := floatDivNat_ok h th hth hh
  rw [floatCountCheck, hr1, hr2]
  dsimp only
  by_cases hovf : (2:ℚ) ^ (1024:ℕ) ≤ roundFloat (r1 * r2)
  · exact ⟨false, by rw [if_pos hovf]⟩
  · exact ⟨_, by rw [if_neg hovf]⟩

theorem valid_input_zero (w h tw th : ℕ) (ordering : List ℕ) (hz : tw = 0 ∨ th = 0) :
    valid_input (w, h) (tw, th) ordering = .error .zeroDivision := by
  by_cases htw : tw = 0
  · simp [valid_input, htw]
  · have hth : th = 0 := by tauto
    simp [valid_input, htw, hth]

theorem valid_input_true (w h tw th : ℕ) (ordering : List ℕ) (htw : tw ≠ 0)
    (hth : th ≠ 0) (hdw : tw ∣ w) (hdh : th ∣ h) (hw0 : 0 < w) (hh0 : 0 < h)
    (hn : (w / tw) * (h / th) < 2 ^ 53)
    (hlen : ordering.length = (w / tw) * (h / th)) (hnodup : ordering.Nodup) :
    valid_input (w, h) (tw, th) ordering = .ok true := by
  simp only [valid_input, if_neg htw, if_neg hth]
  rw [floatCountCheck_exact w tw h th ordering.length htw hth hdw hdh hw0 hh0 hn]
  have h1 : w % tw = 0 := Nat.mod_eq_zero_of_dvd hdw
  have h2 : h % th = 0 := Nat.mod_eq_zero_of_dvd hdh
  have h3 : ordering.dedup = ordering := List.Nodup.dedup hnodup
  simp [h1, h2, h3, hlen]

theorem valid_input_false_of_not_dvd (w h tw th : ℕ) (ordering : List ℕ)
    (htw : tw ≠ 0) (hth : th ≠ 0) (hw : w < 2 ^ 1023) (hh : h < 2 ^ 1023)
    (hnd : ¬ tw ∣ w ∨ ¬ th ∣ h) :
    valid_input (w, h) (tw, th) ordering = .ok false := by
  simp only [valid_input, if_neg htw, if_neg hth]
  obtain ⟨c, hc⟩ := floatCountCheck_ok w tw h th ordering.length htw hth hw hh
  rw [hc]
  rcases hnd with hx | hx
  · have h1 : ¬ (w % tw = 0) := fun hmod => hx (Nat.dvd_of_mod_eq_zero hmod)
    simp [h1]
  · have h1 : ¬ (h % th = 0) := fun hmod => hx (Nat.dvd_of_mod_eq_zero hmod)
    simp [h1]

/-! ## List helpers -/

theorem getD_map_of_lt {α β : Type} (l : List α) (f : α → β) (k : ℕ) (d : β)
    (d0 : α) (hk : k < l.length) : (l.map f).getD k d = f (l.getD k d0) := by
  rw [List.getD_eq_getElem (l.map f) d (by simpa using hk),
    List.getD_eq_getElem l d0 hk, List.getElem_map]

theorem getD_range_of_lt (n k d : ℕ) (hk : k < n) : (List.range n).getD k d = k := by
  rw [List.getD_eq_getElem (List.range n) d (by simpa using hk)]
  simp

theorem getD_replicate_of_lt {α : Type} (a : α) (n k : ℕ) (d : α) (hk : k < n) :
    (List.replicate n a).getD k d = a := by
  rw [List.getD_eq_getElem (List.replicate n a) d (by simpa using hk)]
  simp

/-! ## Facts about the paste loop -/

theorem pasteLoop_mode (off : ℕ → Img → ℕ × ℕ) :
    ∀ (ts : List Img) (acc : Img) (i : ℕ), (pasteLoop off acc ts i).mode = acc.mode := by
  intro ts
  induction ts with
  | nil => intro acc i; rfl
  | cons t rest IH => intro acc i; rw [pasteLoop, IH]; rfl

theorem pasteLoop_width (off : ℕ → Img → ℕ × ℕ) :
    ∀ (ts : List Img) (acc : Img) (i : ℕ), (pasteLoop off acc ts i).width = acc.width := by
  intro ts
  induction ts with
  | nil => intro acc i; rfl
  | cons t rest IH => intro acc i; rw [pasteLoop, IH]; rfl

theorem pasteLoop_height (off : ℕ → Img → ℕ × ℕ) :
    ∀ (ts : List Img) (acc : Img) (i : ℕ), (pasteLoop off acc ts i).height = acc.height := by
  intro ts
  induction ts with
  | nil => intro acc i; rfl
  | cons t rest IH => intro acc i; rw [pasteLoop, IH]; rfl

theorem pasteLoop_px_not_covered (off : ℕ → Img → ℕ × ℕ) :
    ∀ (ts : List Img) (acc : Img) (i x y : ℕ),
    (∀ k, k < ts.length →
      coveredB (ts.getD k dImg) (off (i + k) (ts.getD k dImg)) x y = false) →
    (pasteLoop off acc ts i).px x y = acc.px x y := by
  intro ts
  induction ts with
  | nil => intro acc i x y _; rfl
  | cons t rest IH =>
    intro acc i x y h
    have hrest : ∀ k, k < rest.length →
        coveredB (rest.getD k dImg) (off (i + 1 + k) (rest.getD k dImg)) x y = false := by
      intro k hk
      rw [show i + 1 + k = i + (k + 1) from by omega]
      have := h (k + 1) (by simp only [List.length_cons]; omega)
      simpa using this
    rw [pasteLoop, IH _ (i + 1) x y hrest]
    have h0 : coveredB t (off i t) x y = false := by
      simpa using h 0 (Nat.succ_pos rest.length)
    simp [Img.paste, h0]

theorem pasteLoop_px_covered (off : ℕ → Img → ℕ × ℕ) :
    ∀ (ts : List Img) (acc : Img) (i x y k : ℕ), k < ts.length →
    coveredB (ts.getD k dImg) (off (i + k) (ts.getD k dImg)) x y = true →
    (∀ k2, k < k2 → k2 < ts.length →
      coveredB (ts.getD k2 dImg) (off (i + k2) (ts.getD k2 dImg)) x y = false) →
    (pasteLoop off acc ts i).px x y =
      (ts.getD k dImg).px (x - (off (i + k) (ts.getD k dImg)).1)
        (y - (off (i + k) (ts.getD k dImg)).2) := by
  intro ts
  induction ts with
  | nil => intro acc i x y k hk; exact absurd hk (by simp)
  | cons t rest IH =>
    intro acc i x y k hk hcov hlast
    match k with
    | 0 =>
      have hrest : ∀ k2, k2 < rest.length →
          coveredB (rest.getD k2 dImg) (off (i + 1 + k2) (rest.getD k2 dImg)) x y = false := by
        intro k2 hk2
        rw [show i + 1 + k2 = i + (k2 + 1) from by omega]
        have := hlast (k2 + 1) (by omega) (by simp only [List.length_cons]; omega)
        simpa using this
      rw [pasteLoop, pasteLoop_px_not_covered off rest _ (i + 1) x y hrest]
      have h0 : coveredB t (off i t) x y = true := by simpa using hcov
      simp only [List.getD_cons_zero, Nat.add_zero]
      simp [Img.paste, h0]
    | k' + 1 =>
      have hcov' : coveredB (rest.getD k' dImg)
          (off (i + 1 + k') (rest.getD k' dImg)) x y = true := by
        rw [show i + 1 + k' = i + (k' + 1) from by omega]
        simpa using hcov
      have hlast' : ∀ k2, k' < k2 → k2 < rest.length →
          coveredB (rest.getD k2 dImg) (off (i + 1 + k2) (rest.getD k2 dImg)) x y = false := by
        intro k2 h1 h2
        rw [show i + 1 + k2 = i + (k2 + 1) from by omega]
        have := hlast (k2 + 1) (by omega) (by simp only [List.length_cons]; omega)
        simpa using this
      have hk' : k' < rest.length := by
        simp only [List.length_cons] at hk
        omega
      rw [pasteLoop, IH _ (i + 1) x y k' hk' hcov' hlast']
      rw [show i + 1 + k' = i + (k' + 1) from by omega]
      simp

theorem pasteLoop_congr (off1 off2 : ℕ → Img → ℕ × ℕ) :
    ∀ (ts : List Img) (acc : Img) (i : ℕ),
    (∀ k, k < ts.length → off1 (i + k) (ts.getD k dImg) = off2 (i + k) (ts.getD k dImg)) →
    pasteLoop off1 acc ts i = pasteLoop off2 acc ts i := by
  intro ts
  induction ts with
  | nil => intro acc i _; rfl
  | cons t rest IH =>
    intro acc i h
    have h0 : off1 i t = off2 i t := by simpa using h 0 (Nat.succ_pos rest.length)
    rw [pasteLoop, pasteLoop, h0]
    apply IH
    intro k hk
    rw [show i + 1 + k = i + (k + 1) from by omega]
    have := h (k + 1) (by simp only [List.length_cons]; omega)
    simpa using this

/-! ## Facts about `extract_tile` and `rearrange_tiles` -/

/-- Under the safe-index bound, the box computed by `extract_tile` is the
exact integer-arithmetic box. -/
theorem extractRect_exact_eq (ts : ℕ × ℕ) (ti tbr : ℕ) (htbr : 0 < tbr)
    (hti : ti < 2 ^ 53) :
    extractRect ts ti tbr =
      ((ti % tbr) * ts.1, (ti / tbr) * ts.2,
       (ti % tbr) * ts.1 + ts.1, (ti / tbr) * ts.2 + ts.2) := by
  rw [extractRect]
  rw [pyTrunc_roundFloat_div ti tbr htbr hti]

theorem extract_tile_exact (im : Img) (ts : ℕ × ℕ) (ti tbr : ℕ) (htbr : 0 < tbr)
    (hti : ti < 2 ^ 53) :
    extract_tile im ts ti tbr =
      im.crop ((ti % tbr) * ts.1) ((ti / tbr) * ts.2)
        ((ti % tbr) * ts.1 + ts.1) ((ti / tbr) * ts.2 + ts.2) := by
  rw [extract_tile, extractRect_exact_eq ts ti tbr htbr hti]

theorem extract_tile_width (im : Img) (ts : ℕ × ℕ) (ti tbr : ℕ) :
    (extract_tile im ts ti tbr).width = ts.1 := by
  simp only [extract_tile, extractRect, Img.crop]
  omega

theorem extract_tile_height (im : Img) (ts : ℕ × ℕ) (ti tbr : ℕ) :
    (extract_tile im ts ti tbr).height = ts.2 := by
  simp only [extract_tile, extractRect, Img.crop]
  omega

theorem div_eq_iff_cover (s a x : ℕ) (hs : 0 < s) :
    (a * s ≤ x ∧ x < a * s + s) ↔ x / s = a := by
  constructor
  · rintro ⟨h1, h2⟩
    have hc : s * (x / s) + x % s = x := Nat.div_add_mod x s
    have hm : x % s < s := Nat.mod_lt x hs
    by_contra hne
    rcases Nat.lt_or_ge (x / s) a with hlt | hge
    · have : x / s + 1 ≤ a := by omega
      have h3 : (x / s + 1) * s ≤ a * s := Nat.mul_le_mul_right s this
      have h4 : (x / s + 1) * s = s * (x / s) + s := by ring
      omega
    · have : a + 1 ≤ x / s := by omega
      have h3 : (a + 1) * s ≤ (x / s) * s := Nat.mul_le_mul_right s this
      have h4 : (x / s) * s = s * (x / s) := by ring
      have h5 : (a + 1) * s = a * s + s := by ring
      omega
  · intro h
    subst h
    have hc : s * (x / s) + x % s = x := Nat.div_add_mod x s
    have hm : x % s < s := Nat.mod_lt x hs
    have h4 : x / s * s = s * (x / s) := by ring
    omega

/-- Full characterisation of a successful run of `rearrange_tiles`: under the
spec's validity assumptions (and the safe size bound `tile_count < 2 ^ 53`)
the run succeeds, and the output pixel at `(x, y)` - lying in grid cell
`g = tileOfPx` - comes from the source tile `ordering[g]`, at the same
offset inside the tile. -/
theorem rearrange_tiles_spec (image : Img) (tw th : ℕ) (ordering : List ℕ)
    (hw0 : 0 < image.width) (hh0 : 0 < image.height)
    (hdw : tw ∣ image.width) (hdh : th ∣ image.height)
    (hn : (image.width / tw) * (image.height / th) < 2 ^ 53)
    (hperm : ordering.Perm
      (List.range ((image.width / tw) * (image.height / th)))) :
    ∃ out, rearrange_tiles image (tw, th) ordering = .ok out ∧
      out.mode = image.mode ∧ out.width = image.width ∧
      out.height = image.height ∧
      ∀ x, x < image.width → ∀ y, y < image.height →
        out.px x y =
          image.px
            ((ordering.getD (tileOfPx (tw, th) (image.width / tw) x y) 0 %
                (image.width / tw)) * tw + x % tw)
            ((ordering.getD (tileOfPx (tw, th) (image.width / tw) x y) 0 /
                (image.width / tw)) * th + y % th) := by
  set w := image.width with hw_def
  set h := image.height with hh_def
  set qx := w / tw with hqx_def
  set qy := h / th with hqy_def
  set n := qx * qy with hn_def
  have htw0 : tw ≠ 0 := by
    rintro rfl
    rw [Nat.eq_zero_of_zero_dvd hdw] at hw0
    omega
  have hth0 : th ≠ 0 := by
    rintro rfl
    rw [Nat.eq_zero_of_zero_dvd hdh] at hh0
    omega
  have htwp : 0 < tw := Nat.pos_of_ne_zero htw0
  have hthp : 0 < th := Nat.pos_of_ne_zero hth0
  have hqx1 : 1 ≤ qx := (Nat.one_le_div_iff htwp).mpr (Nat.le_of_dvd hw0 hdw)
  have hqy1 : 1 ≤ qy := (Nat.one_le_div_iff hthp).mpr (Nat.le_of_dvd hh0 hdh)
  have hqxlt : qx < 2 ^ 53 := by
    have : qx ≤ n := Nat.le_mul_of_pos_right _ hqy1
    omega
  have hwmul : qx * tw = w := Nat.div_mul_cancel hdw
  have hhmul : qy * th = h := Nat.div_mul_cancel hdh
  have hlen : ordering.length = n := by
    rw [hperm.length_eq, List.length_range]
  have hnodup : ordering.Nodup := hperm.nodup_iff.mpr (List.nodup_range _)
  have hvalid : valid_input (w, h) (tw, th) ordering = .ok true :=
    valid_input_true w h tw th ordering htw0 hth0 hdw hdh hw0 hh0 hn hlen hnodup
  have hdiv : floatDivNat w tw = .ok ((qx : ℕ) : ℚ) :=
    floatDivNat_dvd w tw htw0 hdw hqxlt
  rw [rearrange_tiles]
  rw [show (image.width, image.height) = (w, h) from rfl] at *
  rw [hvalid]
  dsimp only
  rw [hdiv]
  dsimp only
  rw [pyTrunc_natCast qx]
  refine ⟨_, rfl, ?_, ?_, ?_, ?_⟩
  · rw [recompose_image, pasteLoop_mode]; rfl
  · rw [recompose_image, pasteLoop_width]; rfl
  · rw [recompose_image, pasteLoop_height]; rfl
  intro x hx y hy
  set tiles := ordering.map
    (fun tile_index => extract_tile image (tw, th) tile_index qx) with htiles_def
  have htlen : tiles.length = n := by rw [htiles_def, List.length_map, hlen]
  have hxtw : x / tw < qx := by
    rw [Nat.div_lt_iff_lt_mul htwp]
    omega
  have hyth : y / th < qy := by
    rw [Nat.div_lt_iff_lt_mul hthp]
    omega
  set g := tileOfPx (tw, th) qx x y with hg_def
  have hgval : g = (y / th) * qx + x / tw := rfl
  have hgn : g < n := by
    have h1 : (y / th) * qx + qx ≤ qy * qx := by
      calc (y / th) * qx + qx = (y / th + 1) * qx := by ring
        _ ≤ qy * qx := Nat.mul_le_mul_right qx hyth
    have h2 : qy * qx = n := by rw [hn_def]; ring
    omega
  have htile : ∀ k, k < n →
      tiles.getD k dImg = extract_tile image (tw, th) (ordering.getD k 0) qx := by
    intro k hk
    rw [htiles_def]
    exact getD_map_of_lt ordering _ k dImg 0 (by omega)
  have hoff : ∀ k, k < n →
      codeOff qx k (tiles.getD k dImg) = ((k % qx) * tw, (k / qx) * th) := by
    intro k hk
    rw [codeOff, htile k hk, extract_tile_width, extract_tile_height]
    rw [pyTrunc_roundFloat_div k qx (by omega) (by omega)]
  have hcovIff : ∀ k, k < n →
      (coveredB (tiles.getD k dImg) (codeOff qx k (tiles.getD k dImg)) x y = true ↔
        (x / tw = k % qx ∧ y / th = k / qx)) := by
    intro k hk
    rw [hoff k hk, coveredB, htile k hk]
    rw [extract_tile_width, extract_tile_height]
    rw [decide_eq_true_eq]
    constructor
    · rintro ⟨h1, h2, h3, h4⟩
      exact ⟨(div_eq_iff_cover tw (k % qx) x htwp).mp ⟨h1, h2⟩,
        (div_eq_iff_cover th (k / qx) y hthp).mp ⟨h3, h4⟩⟩
    · rintro ⟨h1, h2⟩
      obtain ⟨h3, h4⟩ := (div_eq_iff_cover tw (k % qx) x htwp).mpr h1
      obtain ⟨h5, h6⟩ := (div_eq_iff_cover th (k / qx) y hthp).mpr h2
      exact ⟨h3, h4, h5, h6⟩
  have hcell : ∀ k, k < n → ((x / tw = k % qx ∧ y / th = k / qx) ↔ k = g) := by
    intro k hk
    constructor
    · rintro ⟨h1, h2⟩
      have h3 : qx * (k / qx) + k % qx = k := Nat.div_add_mod k qx
      have h4 : (y / th) * qx = qx * (k / qx) := by rw [h2]; ring
      omega
    · rintro rfl
      constructor
      · rw [hgval]
        rw [show (y / th) * qx + x / tw = x / tw + (y / th) * qx from by ring]
        rw [Nat.add_mul_mod_self_right]
        exact (Nat.mod_eq_of_lt hxtw).symm
      · rw [hgval]
        rw [show (y / th) * qx + x / tw = x / tw + (y / th) * qx from by ring]
        rw [Nat.add_mul_div_right _ _ (by omega : 0 < qx)]
        rw [Nat.div_eq_of_lt hxtw]
        omega
  have hcovg : coveredB (tiles.getD g dImg) (codeOff qx g (tiles.getD g dImg)) x y
      = true := (hcovIff g hgn).mpr ((hcell g hgn).mpr rfl)
  have hlast : ∀ k2, g < k2 → k2 < tiles.length →
      coveredB (tiles.getD k2 dImg) (codeOff qx k2 (tiles.getD k2 dImg)) x y
        = false := by
    intro k2 h1 h2
    rw [htlen] at h2
    rcases Bool.eq_false_or_eq_true
      (coveredB (tiles.getD k2 dImg) (codeOff qx k2 (tiles.getD k2 dImg)) x y) with ht | hf
    · have := (hcell k2 h2).mp ((hcovIff k2 h2).mp ht)
      omega
    · exact hf
  have hcovg' : coveredB (tiles.getD g dImg)
      (codeOff qx (0 + g) (tiles.getD g dImg)) x y = true := by
    rw [Nat.zero_add]
    exact hcovg
  rw [recompose_image]
  rw [pasteLoop_px_covered (codeOff qx) tiles _ 0 x y g (by omega) hcovg'
    (by intro k2 hk1 hk2; rw [Nat.zero_add]; exact hlast k2 hk1 hk2)]
  rw [Nat.zero_add, hoff g hgn, htile g hgn]
  set ti := ordering.getD g 0 with hti_def
  have htin : ti < n := by
    have hmem : ti ∈ ordering := by
      rw [hti_def, List.getD_eq_getElem ordering 0 (by omega)]
      exact List.getElem_mem _
    have := hperm.mem_iff.mp hmem
    exact List.mem_range.mp this
  rw [extract_tile_exact image (tw, th) ti qx (by omega) (by omega)]
  rw [Img.crop]
  dsimp only
  have hgm : g % qx = x / tw := ((hcell g hgn).mpr rfl).1.symm
  have hgd : g / qx = y / th := ((hcell g hgn).mpr rfl).2.symm
  rw [hgm, hgd]
  have hxsub : x - (x / tw) * tw = x % tw := by
    have h1 : tw * (x / tw) + x % tw = x := Nat.div_add_mod x tw
    have h2 : (x / tw) * tw = tw * (x / tw) := by ring
    omega
  have hysub : y - (y / th) * th = y % th := by
    have h1 : th * (y / th) + y % th = y := Nat.div_add_mod y th
    have h2 : (y / th) * th = th * (y / th) := by ring
    omega
  rw [hxsub, hysub]
  have hinb1 : (ti % qx) * tw + x % tw < w := by
    have h1 : ti % qx + 1 ≤ qx := Nat.mod_lt ti (by omega)
    have h2 : (ti % qx + 1) * tw ≤ qx * tw := Nat.mul_le_mul_right tw h1
    have h3 : (ti % qx + 1) * tw = (ti % qx) * tw + tw := by ring
    have h4 : x % tw < tw := Nat.mod_lt x htwp
    omega
  have hinb2 : (ti / qx) * th + y % th < h := by
    have h0 : ti / qx < qy := by
      rw [Nat.div_lt_iff_lt_mul (by omega : 0 < qx)]
      have : qy * qx = n := by rw [hn_def]; ring
      omega
    have h2 : (ti / qx + 1) * th ≤ qy * th := Nat.mul_le_mul_right th h0
    have h3 : (ti / qx + 1) * th = (ti / qx) * th + th := by ring
    have h4 : y % th < th := Nat.mod_lt y hthp
    omega
  rw [if_pos ⟨hinb1, hinb2⟩]

/-! ## Concrete evaluations of the float model -/

theorem rndHalfEven_eval_tie (x : ℚ) (nn : ℤ) (hfl : ⌊x⌋ = nn)
    (hhalf : x - nn = 1/2) :
    rndHalfEven x = (if nn % 2 = 0 then nn else nn + 1) := by
  rw [rndHalfEven]
  simp only [hfl, hhalf]
  norm_num

theorem lt_2p1023_of_lt_2p60 (m : ℕ) (hm : m < 2 ^ 60) : m < 2 ^ 1023 :=
  lt_of_lt_of_le hm (Nat.pow_le_pow_right (by norm_num) (by norm_num))

/-- The number `2 ^ 53 + 1` is the smallest positive integer with no exact binary64
representation: it rounds down to `2 ^ 53` (a tie, and the even candidate
wins). -/
theorem roundFloat_2p53_add_one :
    roundFloat ((2:ℚ) ^ (53:ℕ) + 1) = (2:ℚ) ^ (53:ℕ) := by
  have hq : (0:ℚ) < (2:ℚ) ^ (53:ℕ) + 1 := by norm_num
  have hd : log2floorQ ((2:ℚ) ^ (53:ℕ) + 1) = 53 := by
    apply log2floorQ_unique _ hq
    · rw [show (53:ℤ) = ((53:ℕ):ℤ) from rfl, two_zpow_eq_pow]
      norm_num
    · rw [show (53:ℤ) + 1 = ((54:ℕ):ℤ) from rfl, two_zpow_eq_pow]
      norm_num
  rw [roundFloat_pos_def _ hq, hd, show (53:ℤ) - 52 = 1 from by norm_num, zpow_one]
  have hfl : ⌊((2:ℚ) ^ (53:ℕ) + 1) / 2⌋ = (4503599627370496 : ℤ) := by
    rw [Int.floor_eq_iff]
    norm_num
  have hhalf : ((2:ℚ) ^ (53:ℕ) + 1) / 2 - ((4503599627370496 : ℤ) : ℚ) = 1/2 := by
    norm_num
  rw [rndHalfEven_eval_tie _ _ hfl hhalf]
  norm_num

/-- The value `(2 ^ 54 - 1) / 2 = 2 ^ 53 - 1/2` rounds up to `2 ^ 53` (a tie, and
`2 ^ 53 - 1` is odd). -/
theorem roundFloat_2p53_sub_half :
    roundFloat (((2:ℚ) ^ (54:ℕ) - 1) / 2) = (2:ℚ) ^ (53:ℕ) := by
  have hq : (0:ℚ) < ((2:ℚ) ^ (54:ℕ) - 1) / 2 := by norm_num
  have hd : log2floorQ (((2:ℚ) ^ (54:ℕ) - 1) / 2) = 52 := by
    apply log2floorQ_unique _ hq
    · rw [show (52:ℤ) = ((52:ℕ):ℤ) from rfl, two_zpow_eq_pow]
      norm_num
    · rw [show (52:ℤ) + 1 = ((53:ℕ):ℤ) from rfl, two_zpow_eq_pow]
      norm_num
  rw [roundFloat_pos_def _ hq, hd, show (52:ℤ) - 52 = 0 from by norm_num, zpow_zero,
    div_one]
  have hfl : ⌊((2:ℚ) ^ (54:ℕ) - 1) / 2⌋ = (9007199254740991 : ℤ) := by
    rw [Int.floor_eq_iff]
    norm_num
  have hhalf : ((2:ℚ) ^ (54:ℕ) - 1) / 2 - ((9007199254740991 : ℤ) : ℚ) = 1/2 := by
    norm_num
  rw [rndHalfEven_eval_tie _ _ hfl hhalf]
  norm_num

/-- Any value at least `2 ^ 1024` still rounds to at least `2 ^ 1024`:
the overflow check in `floatDivNat` fires. -/
theorem roundFloat_ge_2p1024 (q : ℚ) (hge : (2:ℚ) ^ (1024:ℕ) ≤ q) :
    (2:ℚ) ^ (1024:ℕ) ≤ roundFloat q := by
  have hq : (0:ℚ) < q :=
    lt_of_lt_of_le (pow_pos (by norm_num : (0:ℚ) < 2) 1024) hge
  have hd : (1024:ℤ) ≤ log2floorQ q := by
    by_contra hcon
    push_neg at hcon
    have h1 : (2:ℚ) ^ (log2floorQ q + 1) ≤ (2:ℚ) ^ ((1024:ℕ):ℤ) :=
      zpow_le_zpow_right₀ one_le_two (by omega)
    have h2 := (log2floorQ_spec q hq).2
    rw [two_zpow_eq_pow] at h1
    linarith
  calc (2:ℚ) ^ (1024:ℕ) = (2:ℚ) ^ ((1024:ℕ):ℤ) := (two_zpow_eq_pow 1024).symm
    _ ≤ (2:ℚ) ^ log2floorQ q := zpow_le_zpow_right₀ one_le_two hd
    _ ≤ roundFloat q := roundFloat_lower q hq

theorem not_2p1024_le_2p53 : ¬ ((2:ℚ) ^ (1024:ℕ) ≤ (2:ℚ) ^ (53:ℕ)) :=
  not_le.mpr (pow_lt_pow_right₀ (by norm_num) (by omega))

theorem floatDivNat_2p53_add_one : floatDivNat (2 ^ 53 + 1) 1 = .ok ((2:ℚ) ^ (53:ℕ)) := by
  rw [floatDivNat, if_neg (by norm_num : ¬ (1 = 0))]
  have hcast : ((2 ^ 53 + 1 : ℕ) : ℚ) / ((1 : ℕ) : ℚ) = (2:ℚ) ^ (53:ℕ) + 1 := by
    push_cast
    norm_num
  rw [hcast, roundFloat_2p53_add_one, if_neg not_2p1024_le_2p53]

theorem floatDivNat_one_one : floatDivNat 1 1 = .ok 1 := by
  have h := floatDivNat_dvd 1 1 (by norm_num) (dvd_refl 1) (by norm_num)
  simpa using h

theorem roundFloat_2p53 : roundFloat ((2:ℚ) ^ (53:ℕ)) = (2:ℚ) ^ (53:ℕ) := by
  rw [← two_zpow_eq_pow 53]
  exact roundFloat_two_zpow 53

theorem fcc_bigw : floatCountCheck (2 ^ 53 + 1) 1 1 1 (2 ^ 53 + 1) = .ok false := by
  rw [floatCountCheck, floatDivNat_2p53_add_one, floatDivNat_one_one]
  dsimp only
  rw [mul_one, roundFloat_2p53, if_neg not_2p1024_le_2p53]
  have hne : ¬ ((2:ℚ) ^ (53:ℕ) = ((2 ^ 53 + 1 : ℕ) : ℚ)) := by
    push_cast
    norm_num
  rw [decide_eq_false hne]

theorem fcc_bigh : floatCountCheck 1 1 (2 ^ 53 + 1) 1 (2 ^ 53 + 1) = .ok false := by
  rw [floatCountCheck, floatDivNat_2p53_add_one, floatDivNat_one_one]
  dsimp only
  rw [one_mul, roundFloat_2p53, if_neg not_2p1024_le_2p53]
  have hne : ¬ ((2:ℚ) ^ (53:ℕ) = ((2 ^ 53 + 1 : ℕ) : ℚ)) := by
    push_cast
    norm_num
  rw [decide_eq_false hne]

theorem valid_input_eq_ok (w h tw th : ℕ) (ordering : List ℕ) (c : Bool)
    (htw : tw ≠ 0) (hth : th ≠ 0)
    (hfcc : floatCountCheck w tw h th ordering.length = .ok c) :
    valid_input (w, h) (tw, th) ordering =
      .ok ((decide (w % tw = 0) && decide (h % th = 0)) && c &&
        decide (ordering.length = ordering.dedup.length)) := by
  simp only [valid_input, if_neg htw, if_neg hth]
  rw [hfcc]

theorem valid_input_eq_error (w h tw th : ℕ) (ordering : List ℕ) (e : PyErr)
    (htw : tw ≠ 0) (hth : th ≠ 0)
    (hfcc : floatCountCheck w tw h th ordering.length = .error e) :
    valid_input (w, h) (tw, th) ordering = .error e := by
  simp only [valid_input, if_neg htw, if_neg hth]
  rw [hfcc]

theorem val_big_w :
    valid_input (2 ^ 53 + 1, 1) (1, 1) (List.range (2 ^ 53 + 1)) = .ok false := by
  rw [valid_input_eq_ok (2 ^ 53 + 1) 1 1 1 (List.range (2 ^ 53 + 1)) false
    (by norm_num) (by norm_num) (by rw [List.length_range]; exact fcc_bigw)]
  rw [Bool.and_false, Bool.false_and]

theorem val_big_h :
    valid_input (1, 2 ^ 53 + 1) (1, 1) (List.range (2 ^ 53 + 1)) = .ok false := by
  rw [valid_input_eq_ok 1 (2 ^ 53 + 1) 1 1 (List.range (2 ^ 53 + 1)) false
    (by norm_num) (by norm_num) (by rw [List.length_range]; exact fcc_bigh)]
  rw [Bool.and_false, Bool.false_and]

theorem le_div_2p1100 (b : ℕ) (hb : 0 < (b:ℚ)) (hb4 : (b:ℚ) ≤ 4) :
    (2:ℚ) ^ (1024:ℕ) ≤ ((2 ^ 1100 : ℕ) : ℚ) / (b : ℚ) := by
  rw [le_div_iff hb, cast_pow_eq 1100]
  calc (2:ℚ) ^ (1024:ℕ) * (b:ℚ) ≤ (2:ℚ) ^ (1024:ℕ) * 4 :=
        mul_le_mul_of_nonneg_left hb4 (pow_pos (by norm_num : (0:ℚ) < 2) 1024).le
    _ = (2:ℚ) ^ (1026:ℕ) := by
        rw [show (4:ℚ) = 2 ^ (2:ℕ) from by norm_num, ← pow_add]
    _ ≤ (2:ℚ) ^ (1100:ℕ) := pow_le_pow_right₀ (by norm_num) (by omega)

theorem floatDivNat_2p1100_3 : floatDivNat (2 ^ 1100) 3 = .error .overflowError := by
  rw [floatDivNat, if_neg (by norm_num : ¬ ((3:ℕ) = 0))]
  rw [if_pos (roundFloat_ge_2p1024 _ (le_div_2p1100 3 (by norm_num) (by norm_num)))]

theorem floatDivNat_2p1100_1 : floatDivNat (2 ^ 1100) 1 = .error .overflowError := by
  rw [floatDivNat, if_neg (by norm_num : ¬ ((1:ℕ) = 0))]
  rw [if_pos (roundFloat_ge_2p1024 _ (le_div_2p1100 1 (by norm_num) (by norm_num)))]

theorem fcc_ovf : floatCountCheck (2 ^ 1100) 3 1 1 0 = .error .overflowError := by
  rw [floatCountCheck, floatDivNat_2p1100_3]

theorem val_ovf : valid_input (2 ^ 1100, 1) (3, 1) [] = .error .overflowError :=
  valid_input_eq_error (2 ^ 1100) 1 3 1 [] .overflowError
    (by norm_num) (by norm_num) (by rw [List.length_nil]; exact fcc_ovf)

theorem pyTrunc_roundFloat_natCast_le (i : ℕ) (h : i ≤ 2 ^ 53) :
    pyTrunc (roundFloat ((i : ℕ) : ℚ)) = i := by
  rcases Nat.lt_or_ge i (2 ^ 53) with hlt | hge
  · rw [roundFloat_natCast i hlt, pyTrunc_natCast]
  · have heq : i = 2 ^ 53 := by omega
    subst heq
    rw [cast_pow_eq 53, roundFloat_2p53, ← cast_pow_eq 53, pyTrunc_natCast]

theorem pyTrunc_roundFloat_2p53_add_one :
    pyTrunc (roundFloat ((2 ^ 53 + 1 : ℕ) : ℚ)) = 2 ^ 53 := by
  rw [show ((2 ^ 53 + 1 : ℕ) : ℚ) = (2:ℚ) ^ (53:ℕ) + 1 from by push_cast; norm_num,
    roundFloat_2p53_add_one, ← cast_pow_eq 53, pyTrunc_natCast]

/-! ## Grid arithmetic helpers -/

theorem add_mul_div_mod (r a s : ℕ) (hs : 0 < s) (hr : r < s) :
    (r + a * s) / s = a ∧ (r + a * s) % s = r := by
  constructor
  · rw [Nat.add_mul_div_right _ _ hs, Nat.div_eq_of_lt hr, Nat.zero_add]
  · rw [Nat.add_mul_mod_self_right, Nat.mod_eq_of_lt hr]

theorem div_mul_add_mod (x s : ℕ) : x / s * s + x % s = x := by
  have h1 := Nat.div_add_mod x s
  have h2 : x / s * s = s * (x / s) := by ring
  omega

theorem tileOfPx_facts (tw th qx qy x y : ℕ) (htw : 0 < tw) (hth : 0 < th)
    (hx : x < qx * tw) (hy : y < qy * th) :
    tileOfPx (tw, th) qx x y < qx * qy ∧
    tileOfPx (tw, th) qx x y % qx = x / tw ∧
    tileOfPx (tw, th) qx x y / qx = y / th := by
  have hxtw : x / tw < qx := by rw [Nat.div_lt_iff_lt_mul htw]; exact hx
  have hyth : y / th < qy := by rw [Nat.div_lt_iff_lt_mul hth]; exact hy
  have hg : tileOfPx (tw, th) qx x y = x / tw + (y / th) * qx := by
    rw [tileOfPx]; ring
  obtain ⟨hdiv, hmod⟩ := add_mul_div_mod (x / tw) (y / th) qx
    (Nat.lt_of_le_of_lt (Nat.zero_le (x / tw)) hxtw) hxtw
  refine ⟨?_, by rw [hg]; exact hmod, by rw [hg]; exact hdiv⟩
  rw [hg]
  have h1 : (y / th + 1) * qx ≤ qy * qx := Nat.mul_le_mul_right qx hyth
  have h2 : (y / th + 1) * qx = (y / th) * qx + qx := by ring
  have h3 : qy * qx = qx * qy := by ring
  omega

/-! ## Sample images used by witnesses and counterexamples -/

def img6x4 : Img := ⟨0, 6, 4, fun x y => x + y⟩

def img2x2 : Img := ⟨7, 2, 2, fun x y => 10 * x + y⟩

def wideImg : Img := ⟨0, 2 ^ 53 + 1, 1, fun _ _ => 0⟩

def vertImg : Img := ⟨0, 1, 2 ^ 53 + 1, fun _ _ => 0⟩

def tallImg : Img := ⟨0, 1, 2 ^ 53 + 2, fun _ _ => 0⟩

def unitImg : Img := ⟨0, 1, 1, fun _ _ => 1⟩

/-! ## The claims -/

/-- C1: whenever `valid_input` returns `False`, `rearrange_tiles` raises the
domain error (Python `ValueError`, the spec's "InvalidConfigurationError")
with exactly the message `invalidMsg`, performs no extraction and writes
nothing to `out_path` - in this embedding an `.error` result is precisely a
run that raises before saving, so no output image exists. -/
theorem c1_invalid_config_raises (image : Img) (tile_size : ℕ × ℕ)
    (ordering : List ℕ)
    (hv : valid_input (image.width, image.height) tile_size ordering = .ok false) :
    rearrange_tiles image tile_size ordering = .error (.valueError invalidMsg) := by
  rw [rearrange_tiles, hv]

/-- Witness for C1 at a concrete invalid input: a 6 x 4 image with 4 x 4
tiles (6 is not divisible by 4). -/
theorem c1_invalid_config_raises_witness :
    valid_input (img6x4.width, img6x4.height) (4, 4) [0] = .ok false ∧
    rearrange_tiles img6x4 (4, 4) [0] = .error (.valueError invalidMsg) := by
  have hv : valid_input (6, 4) (4, 4) [0] = .ok false :=
    valid_input_false_of_not_dvd 6 4 4 4 [0] (by norm_num) (by norm_num)
      (lt_2p1023_of_lt_2p60 6 (by norm_num)) (lt_2p1023_of_lt_2p60 4 (by norm_num))
      (Or.inl (by decide))
  exact ⟨hv, c1_invalid_config_raises img6x4 (4, 4) [0] hv⟩

/-- C4 (the bug): `valid_input` accepts `ordering = [0, 7]` for a 2 x 1 image
with 1 x 1 tiles (tile count 2), even though `7` is out of range, so the
accepted ordering is not a permutation of `[0, tile_count)`.  The function's
own docstring requires the ordering to "use each input tile exactly once";
the length-plus-distinctness check does not enforce the range. -/
theorem c4_valid_input_accepts_out_of_range :
    valid_input (2, 1) (1, 1) [0, 7] = .ok true ∧
    ¬ (([0, 7] : List ℕ).Perm (List.range ((2 / 1) * (1 / 1)))) := by
  constructor
  · exact valid_input_true 2 1 1 1 [0, 7] (by norm_num) (by norm_num)
      (one_dvd 2) (one_dvd 1) (by norm_num) (by norm_num) (by norm_num)
      (by decide) (by decide)
  · decide

/-- C5 counterexample: with a zero tile width the code raises
`ZeroDivisionError` (from `image_width % 0`); it does not return `False` as
the claim states. -/
theorem c5_zero_tile_counterexample :
    valid_input (4, 4) (0, 2) [] = .error .zeroDivision ∧
    valid_input (4, 4) (0, 2) [] ≠ .ok false := by
  have h := valid_input_zero 4 4 0 2 [] (Or.inl rfl)
  refine ⟨h, ?_⟩
  rw [h]
  intro hc
  exact Except.noConfusion hc

/-- C5 (amended): for every image size and ordering, a tile size with a zero
component makes `valid_input` raise `ZeroDivisionError` (no division guard
exists in the code); it neither returns a boolean nor raises anything else. -/
theorem c5_zero_tile_raises (image_size : ℕ × ℕ) (tw th : ℕ)
    (ordering : List ℕ) (hz : tw = 0 ∨ th = 0) :
    valid_input image_size (tw, th) ordering = .error .zeroDivision :=
  valid_input_zero image_size.1 image_size.2 tw th ordering hz

/-- Witness for the amended C5 at a concrete input. -/
theorem c5_zero_tile_raises_witness :
    ((2:ℕ) = 0 ∨ (0:ℕ) = 0) ∧
    valid_input (4, 4) (2, 0) [0] = .error .zeroDivision :=
  ⟨Or.inr rfl, c5_zero_tile_raises (4, 4) 2 0 [0] (Or.inr rfl)⟩

/-- C6 counterexample, three instances.  (1) `tile_height = 0` with
`2 ∤ 3`: the claim demands `False`, the code raises `ZeroDivisionError`.
(2) a `(2 ^ 53 + 1) x 1` image with `1 x 1` tiles and the identity
permutation: divisibility and permutation hold, but the float tile-count
check rounds `2 ^ 53 + 1` to `2 ^ 53` and returns `False` instead of `True`.
(3) `3 ∤ 2 ^ 1100`: the claim demands `False`, but the float division
`2 ^ 1100 / 3` overflows and the code raises `OverflowError`. -/
theorem c6_valid_input_counterexample :
    valid_input (3, 4) (2, 0) [0] = .error .zeroDivision ∧
    valid_input (2 ^ 53 + 1, 1) (1, 1) (List.range (2 ^ 53 + 1)) = .ok false ∧
    valid_input (2 ^ 1100, 1) (3, 1) [] = .error .overflowError :=
  ⟨valid_input_zero 3 4 2 0 [0] (Or.inr rfl), val_big_w, val_ovf⟩

/-- C6 (amended).  Part 1: for positive dimensions, nonzero tile components,
exact divisibility, tile count below `2 ^ 53`, and an ordering that is a
permutation of `[0, tile_count)`, `valid_input` returns `True`.  Part 2:
for nonzero tile components, dimensions below `2 ^ 1023` (so the float
divisions cannot overflow), and a failing divisibility check on either axis,
`valid_input` returns `False` for every ordering. -/
theorem c6_valid_input_amended :
    (∀ w h tw th (ordering : List ℕ), tw ≠ 0 → th ≠ 0 → tw ∣ w → th ∣ h →
      0 < w → 0 < h → (w / tw) * (h / th) < 2 ^ 53 →
      ordering.Perm (List.range ((w / tw) * (h / th))) →
      valid_input (w, h) (tw, th) ordering = .ok true) ∧
    (∀ w h tw th (ordering : List ℕ), tw ≠ 0 → th ≠ 0 →
      w < 2 ^ 1023 → h < 2 ^ 1023 → (¬ tw ∣ w ∨ ¬ th ∣ h) →
      valid_input (w, h) (tw, th) ordering = .ok false) := by
  constructor
  · intro w h tw th ordering htw hth hdw hdh hw0 hh0 hn hperm
    exact valid_input_true w h tw th ordering htw hth hdw hdh hw0 hh0 hn
      (by rw [hperm.length_eq, List.length_range])
      (hperm.nodup_iff.mpr (List.nodup_range _))
  · intro w h tw th ordering htw hth hw hh hnd
    exact valid_input_false_of_not_dvd w h tw th ordering htw hth hw hh hnd

/-- Witness for the amended C6: one accepting and one rejecting instance. -/
theorem c6_valid_input_amended_witness :
    valid_input (4, 4) (2, 2) [3, 2, 1, 0] = .ok true ∧
    valid_input (6, 4) (4, 4) [0] = .ok false := by
  constructor
  · exact c6_valid_input_amended.1 4 4 2 2 [3, 2, 1, 0] (by norm_num) (by norm_num)
      (by norm_num) (by norm_num) (by norm_num) (by norm_num) (by norm_num)
      (by decide)
  · exact c6_valid_input_amended.2 6 4 4 4 [0] (by norm_num) (by norm_num)
      (lt_2p1023_of_lt_2p60 6 (by norm_num)) (lt_2p1023_of_lt_2p60 4 (by norm_num))
      (Or.inl (by decide))

/-- C7 counterexample: at `tile_index = 2 ^ 53 + 1`, `tiles_per_row = 1`,
the code's `int(tile_index / tiles_per_row)` is `2 ^ 53` (the float rounds
down), not the exact quotient `2 ^ 53 + 1`, so the computed top edge of the
box differs from the claimed `row * tile_height`. -/
theorem c7_float_row_counterexample :
    (extractRect (1, 1) (2 ^ 53 + 1) 1).2.1 = 2 ^ 53 ∧
    ¬ ((extractRect (1, 1) (2 ^ 53 + 1) 1).2.1 = ((2 ^ 53 + 1) / 1) * 1) := by
  have heval : (extractRect (1, 1) (2 ^ 53 + 1) 1).2.1 = 2 ^ 53 := by
    simp only [extractRect]
    have hdiv : ((2 ^ 53 + 1 : ℕ) : ℚ) / ((1 : ℕ) : ℚ) = ((2 ^ 53 + 1 : ℕ) : ℚ) := by
      norm_num
    rw [hdiv, pyTrunc_roundFloat_2p53_add_one, mul_one]
  refine ⟨heval, ?_⟩
  rw [heval]
  norm_num

/-- C7 (amended): for `tile_index < 2 ^ 53` (far beyond any feasible image)
and positive `tiles_per_row`, `extract_tile`'s box is exactly
`(col * tw, row * th, col * tw + tw, row * th + th)` with
`row = tile_index div tiles_per_row` and `col = tile_index mod tiles_per_row`
computed by exact integer division and modulo; this box is the one handed to
the image's crop operation. -/
theorem c7_extract_rect_amended (ts : ℕ × ℕ) (ti tbr : ℕ) (htbr : 0 < tbr)
    (hti : ti < 2 ^ 53) :
    extractRect ts ti tbr =
      ((ti % tbr) * ts.1, (ti / tbr) * ts.2,
       (ti % tbr) * ts.1 + ts.1, (ti / tbr) * ts.2 + ts.2) :=
  extractRect_exact_eq ts ti tbr htbr hti

/-- Witness for the amended C7 at `tile_index = 5`, `tiles_per_row = 2`,
`tile_size = (3, 2)`. -/
theorem c7_extract_rect_amended_witness :
    (0 < 2 ∧ 5 < 2 ^ 53) ∧
    extractRect (3, 2) 5 2 =
      ((5 % 2) * 3, (5 / 2) * 2, (5 % 2) * 3 + 3, (5 / 2) * 2 + 2) :=
  ⟨⟨by norm_num, by norm_num⟩,
    c7_extract_rect_amended (3, 2) 5 2 (by norm_num) (by norm_num)⟩

/-- C9 counterexample: a `2 x 2 ^ 53` image with `1 x 1` tiles satisfies all
of the claim's hypotheses at `tile_index = 2 ^ 54 - 1 < tile_count = 2 ^ 54`,
yet the crop box's bottom edge is `2 ^ 53 + 1 > image_height`: the float
division `(2 ^ 54 - 1) / 2 = 2 ^ 53 - 1/2` rounds up to `2 ^ 53`, so the
truncated row index overshoots the exact `2 ^ 53 - 1`. -/
theorem c9_crop_bounds_counterexample :
    ((1:ℕ) ∣ 2 ∧ (1:ℕ) ∣ 2 ^ 53 ∧ 2 ^ 54 - 1 < (2 / 1) * (2 ^ 53 / 1)) ∧
    ¬ ((extractRect (1, 1) (2 ^ 54 - 1) (2 / 1)).2.2.2 ≤ 2 ^ 53) := by
  have heval : (extractRect (1, 1) (2 ^ 54 - 1) (2 / 1)).2.2.2 = 2 ^ 53 + 1 := by
    simp only [extractRect, Nat.reduceDiv]
    have hcast : ((2 ^ 54 - 1 : ℕ) : ℚ) = (2:ℚ) ^ (54:ℕ) - 1 := by
      rw [Nat.cast_sub (by norm_num : 1 ≤ 2 ^ 54)]
      push_cast
      norm_num
    have hdiv : ((2 ^ 54 - 1 : ℕ) : ℚ) / ((2 : ℕ) : ℚ) = ((2:ℚ) ^ (54:ℕ) - 1) / 2 := by
      rw [hcast]
      norm_num
    rw [hdiv, roundFloat_2p53_sub_half, ← cast_pow_eq 53, pyTrunc_natCast, mul_one]
  constructor
  · exact ⟨one_dvd 2, one_dvd _, by norm_num⟩
  · rw [heval]
    norm_num

/-- C9 (amended): with positive tile components, exact divisibility, and the
safe size bound `tile_count ≤ 2 ^ 53`, every `tile_index < tile_count` yields
a crop box inside the image: `left < right ≤ image_width` and
`top < bottom ≤ image_height` (all coordinates are naturals, so `0 ≤ left`
and `0 ≤ top` hold trivially); consequently `rearrange_tiles` never crops
outside the source under these bounds. -/
theorem c9_crop_in_bounds_amended (w h tw th ti : ℕ) (htw : 0 < tw)
    (hth : 0 < th) (hdw : tw ∣ w) (hdh : th ∣ h)
    (hn : (w / tw) * (h / th) ≤ 2 ^ 53) (hti : ti < (w / tw) * (h / th)) :
    (extractRect (tw, th) ti (w / tw)).1 < (extractRect (tw, th) ti (w / tw)).2.2.1 ∧
    (extractRect (tw, th) ti (w / tw)).2.2.1 ≤ w ∧
    (extractRect (tw, th) ti (w / tw)).2.1 < (extractRect (tw, th) ti (w / tw)).2.2.2 ∧
    (extractRect (tw, th) ti (w / tw)).2.2.2 ≤ h := by
  have hqx0 : 0 < w / tw := by
    rcases Nat.eq_zero_or_pos (w / tw) with h0 | h0
    · rw [h0, Nat.zero_mul] at hti; omega
    · exact h0
  have hre := extractRect_exact_eq (tw, th) ti (w / tw) hqx0 (by omega)
  rw [hre]
  dsimp only
  have hwmul : (w / tw) * tw = w := Nat.div_mul_cancel hdw
  have hhmul : (h / th) * th = h := Nat.div_mul_cancel hdh
  have hcol : ti % (w / tw) + 1 ≤ w / tw := Nat.mod_lt ti hqx0
  have hrow : ti / (w / tw) < h / th := by
    rw [Nat.div_lt_iff_lt_mul hqx0]
    have : (h / th) * (w / tw) = (w / tw) * (h / th) := by ring
    omega
  refine ⟨by omega, ?_, by omega, ?_⟩
  · have h2 : (ti % (w / tw) + 1) * tw ≤ (w / tw) * tw := Nat.mul_le_mul_right tw hcol
    have h3 : (ti % (w / tw) + 1) * tw = (ti % (w / tw)) * tw + tw := by ring
    omega
  · have h2 : (ti / (w / tw) + 1) * th ≤ (h / th) * th :=
      Nat.mul_le_mul_right th hrow
    have h3 : (ti / (w / tw) + 1) * th = (ti / (w / tw)) * th + th := by ring
    omega

/-- Witness for the amended C9: a 4 x 4 image, 2 x 2 tiles, tile index 3. -/
theorem c9_crop_in_bounds_amended_witness :
    ((0:ℕ) < 2 ∧ (2:ℕ) ∣ 4 ∧ (4 / 2) * (4 / 2) ≤ 2 ^ 53 ∧ 3 < (4 / 2) * (4 / 2)) ∧
    ((extractRect (2, 2) 3 (4 / 2)).1 < (extractRect (2, 2) 3 (4 / 2)).2.2.1 ∧
     (extractRect (2, 2) 3 (4 / 2)).2.2.1 ≤ 4 ∧
     (extractRect (2, 2) 3 (4 / 2)).2.1 < (extractRect (2, 2) 3 (4 / 2)).2.2.2 ∧
     (extractRect (2, 2) 3 (4 / 2)).2.2.2 ≤ 4) :=
  ⟨⟨by norm_num, by norm_num, by norm_num, by norm_num⟩,
    c9_crop_in_bounds_amended 4 4 2 2 3 (by norm_num) (by norm_num)
      (by norm_num) (by norm_num) (by norm_num) (by norm_num)⟩

/-- C10 counterexample, two instances where both divisibility checks hold.
(1) `w = 2 ^ 53 + 1`, `tw = th = h = 1`, `len = 2 ^ 53 + 1`: the exact
integer test is true but the float check computes `2 ^ 53 ≠ 2 ^ 53 + 1` and
yields `False`.  (2) `w = 2 ^ 1100`, `tw = 1`, `h = 0`, `th = 1`, `len = 0`:
the exact test is true, but the float division overflows and the check
raises `OverflowError` instead of yielding any boolean. -/
theorem c10_float_count_check_counterexample :
    (floatCountCheck (2 ^ 53 + 1) 1 1 1 (2 ^ 53 + 1) = .ok false ∧
      ((2 ^ 53 + 1) / 1) * (1 / 1) = 2 ^ 53 + 1) ∧
    (floatCountCheck (2 ^ 1100) 1 0 1 0 = .error .overflowError ∧
      ((2 ^ 1100) / 1) * (0 / 1) = 0) := by
  refine ⟨⟨fcc_bigw, by norm_num⟩, ⟨?_, by simp⟩⟩
  rw [floatCountCheck, floatDivNat_2p1100_1]

/-- C10 (amended): for positive dimensions, nonzero tile components, exact
divisibility, and an exact tile count below `2 ^ 53`, the float-arithmetic
tile-count check of `valid_input` computes exactly the boolean of the exact
integer test `(w div tw) * (h div th) == len`. -/
theorem c10_float_count_check_amended (w tw h th len : ℕ) (htw : tw ≠ 0)
    (hth : th ≠ 0) (hdw : tw ∣ w) (hdh : th ∣ h) (hw0 : 0 < w) (hh0 : 0 < h)
    (hn : (w / tw) * (h / th) < 2 ^ 53) :
    floatCountCheck w tw h th len = .ok (decide ((w / tw) * (h / th) = len)) :=
  floatCountCheck_exact w tw h th len htw hth hdw hdh hw0 hh0 hn

/-- Witness for the amended C10 at `w = h = 4`, `tw = th = 2`, `len = 4`. -/
theorem c10_float_count_check_amended_witness :
    floatCountCheck 4 2 4 2 4 = .ok (decide ((4 / 2) * (4 / 2) = 4)) :=
  c10_float_count_check_amended 4 2 4 2 4 (by norm_num) (by norm_num)
    (by norm_num) (by norm_num) (by norm_num) (by norm_num) (by norm_num)

/-- C3 counterexample: a `(2 ^ 53 + 1) x 1` image divisible by `1 x 1` tiles
with the identity ordering.  The float tile-count check inside `valid_input`
rounds `2 ^ 53 + 1` to `2 ^ 53`, the comparison with the length fails, and
`rearrange_tiles` raises instead of reproducing the image. -/
theorem c3_identity_counterexample :
    rearrange_tiles wideImg (1, 1) (List.range (2 ^ 53 + 1)) =
      .error (.valueError invalidMsg) := by
  rw [rearrange_tiles,
    show (wideImg.width, wideImg.height) = ((2 ^ 53 + 1 : ℕ), (1:ℕ)) from rfl,
    val_big_w]

/-- C3 (amended): for every image with positive dimensions evenly divided by
the tile size on both axes and tile count below `2 ^ 53`, rearranging with
the identity ordering `[0, 1, ..., tile_count - 1]` succeeds and reproduces
the source image pixel-for-pixel. -/
theorem c3_identity_amended (image : Img) (tw th : ℕ)
    (hw0 : 0 < image.width) (hh0 : 0 < image.height)
    (hdw : tw ∣ image.width) (hdh : th ∣ image.height)
    (hn : (image.width / tw) * (image.height / th) < 2 ^ 53) :
    ∃ out, rearrange_tiles image (tw, th)
        (List.range ((image.width / tw) * (image.height / th))) = .ok out ∧
      Img.pixEq out image := by
  obtain ⟨out, hout, hmode, hwidth, hheight, hpx⟩ :=
    rearrange_tiles_spec image tw th
      (List.range ((image.width / tw) * (image.height / th)))
      hw0 hh0 hdw hdh hn (List.Perm.refl _)
  refine ⟨out, hout, hwidth, hheight, ?_⟩
  intro x hx y hy
  rw [hwidth] at hx
  rw [hheight] at hy
  rw [hpx x hx y hy]
  have htw : 0 < tw := by
    rcases Nat.eq_zero_or_pos tw with h0 | h0
    · rw [h0] at hdw
      rw [Nat.eq_zero_of_zero_dvd hdw] at hw0
      omega
    · exact h0
  have hth : 0 < th := by
    rcases Nat.eq_zero_or_pos th with h0 | h0
    · rw [h0] at hdh
      rw [Nat.eq_zero_of_zero_dvd hdh] at hh0
      omega
    · exact h0
  have hxb : x < (image.width / tw) * tw := by rw [Nat.div_mul_cancel hdw]; exact hx
  have hyb : y < (image.height / th) * th := by rw [Nat.div_mul_cancel hdh]; exact hy
  obtain ⟨hglt, hgmod, hgdiv⟩ :=
    tileOfPx_facts tw th (image.width / tw) (image.height / th) x y htw hth hxb hyb
  rw [getD_range_of_lt _ _ 0 hglt, hgmod, hgdiv, div_mul_add_mod x tw,
    div_mul_add_mod y th]

/-- Witness for the amended C3: a concrete 2 x 2 image with 1 x 1 tiles. -/
theorem c3_identity_amended_witness :
    (0 < img2x2.width ∧ 0 < img2x2.height ∧ (1:ℕ) ∣ img2x2.width ∧
      (1:ℕ) ∣ img2x2.height ∧
      (img2x2.width / 1) * (img2x2.height / 1) < 2 ^ 53) ∧
    ∃ out, rearrange_tiles img2x2 (1, 1)
        (List.range ((img2x2.width / 1) * (img2x2.height / 1))) = .ok out ∧
      Img.pixEq out img2x2 :=
  ⟨⟨by norm_num [img2x2], by norm_num [img2x2], one_dvd _, one_dvd _,
      by norm_num [img2x2]⟩,
    c3_identity_amended img2x2 1 1 (by norm_num [img2x2]) (by norm_num [img2x2])
      (one_dvd _) (one_dvd _) (by norm_num [img2x2])⟩

/-- C2 counterexample: a `1 x (2 ^ 53 + 1)` image divisible by `1 x 1` tiles
with `p = [0, 1, ..., 2 ^ 53]`, which is its own inverse permutation.  The
first rearrangement already raises (the float tile-count check fails), so the
round trip cannot reproduce the image. -/
theorem c2_round_trip_counterexample :
    rearrange_tiles vertImg (1, 1) (List.range (2 ^ 53 + 1)) =
      .error (.valueError invalidMsg) := by
  rw [rearrange_tiles,
    show (vertImg.width, vertImg.height) = ((1:ℕ), (2 ^ 53 + 1 : ℕ)) from rfl,
    val_big_h]

/-- C2 (amended): for every image with positive dimensions evenly divided by
the tile size, tile count below `2 ^ 53`, a permutation `p` of
`[0, tile_count)` and a permutation `pinv` that is a left inverse of it
(`p[pinv[i]] = i`), rearranging with `p` and then rearranging the result
with `pinv` reproduces the original image pixel-for-pixel. -/
theorem c2_round_trip_amended (image : Img) (tw th : ℕ) (p pinv : List ℕ)
    (hw0 : 0 < image.width) (hh0 : 0 < image.height)
    (hdw : tw ∣ image.width) (hdh : th ∣ image.height)
    (hn : (image.width / tw) * (image.height / th) < 2 ^ 53)
    (hp : p.Perm (List.range ((image.width / tw) * (image.height / th))))
    (hpinv : pinv.Perm (List.range ((image.width / tw) * (image.height / th))))
    (hinv : ∀ i, i < (image.width / tw) * (image.height / th) →
      p.getD (pinv.getD i 0) 0 = i) :
    ∃ outA, rearrange_tiles image (tw, th) p = .ok outA ∧
      ∃ outB, rearrange_tiles outA (tw, th) pinv = .ok outB ∧
        Img.pixEq outB image := by
  set w := image.width with hw_def
  set h := image.height with hh_def
  set qx := w / tw with hqx_def
  set qy := h / th with hqy_def
  set n := qx * qy with hn_def
  have htw : 0 < tw := by
    rcases Nat.eq_zero_or_pos tw with h0 | h0
    · rw [h0] at hdw
      rw [Nat.eq_zero_of_zero_dvd hdw] at hw0
      omega
    · exact h0
  have hth : 0 < th := by
    rcases Nat.eq_zero_or_pos th with h0 | h0
    · rw [h0] at hdh
      rw [Nat.eq_zero_of_zero_dvd hdh] at hh0
      omega
    · exact h0
  have hwmul : qx * tw = w := Nat.div_mul_cancel hdw
  have hhmul : qy * th = h := Nat.div_mul_cancel hdh
  have hqx1 : 1 ≤ qx := (Nat.one_le_div_iff htw).mpr (Nat.le_of_dvd hw0 hdw)
  have hqy1 : 1 ≤ qy := (Nat.one_le_div_iff hth).mpr (Nat.le_of_dvd hh0 hdh)
  obtain ⟨outA, houtA, hAmode, hAw, hAh, hApx⟩ :=
    rearrange_tiles_spec image tw th p hw0 hh0 hdw hdh hn hp
  have hw0A : 0 < outA.width := by rw [hAw]; exact hw0
  have hh0A : 0 < outA.height := by rw [hAh]; exact hh0
  have hdwA : tw ∣ outA.width := by rw [hAw]; exact hdw
  have hdhA : th ∣ outA.height := by rw [hAh]; exact hdh
  have hnA : (outA.width / tw) * (outA.height / th) < 2 ^ 53 := by
    rw [hAw, hAh]; exact hn
  have hpinvA : pinv.Perm (List.range ((outA.width / tw) * (outA.height / th))) := by
    rw [hAw, hAh]; exact hpinv
  obtain ⟨outB, houtB, hBmode, hBw, hBh, hBpx⟩ :=
    rearrange_tiles_spec outA tw th pinv hw0A hh0A hdwA hdhA hnA hpinvA
  rw [hAw] at hBw hBpx
  rw [hAh] at hBh hBpx
  refine ⟨outA, houtA, outB, houtB, hBw.trans rfl, hBh.trans rfl, ?_⟩
  intro x hx y hy
  rw [hBw] at hx
  rw [hBh] at hy
  rw [hBpx x hx y hy]
  have hxb : x < qx * tw := by rw [hwmul]; exact hx
  have hyb : y < qy * th := by rw [hhmul]; exact hy
  obtain ⟨hglt, hgmod, hgdiv⟩ := tileOfPx_facts tw th qx qy x y htw hth hxb hyb
  set g := tileOfPx (tw, th) qx x y with hg_def
  set u := pinv.getD g 0 with hu_def
  have hun : u < n := by
    have hlenpinv : pinv.length = n := by rw [hpinv.length_eq, List.length_range]
    have hmem : u ∈ pinv := by
      rw [hu_def, List.getD_eq_getElem pinv 0 (by omega)]
      exact List.getElem_mem _
    exact List.mem_range.mp (hpinv.mem_iff.mp hmem)
  have humod : u % qx < qx := Nat.mod_lt u (by omega)
  have hudiv : u / qx < qy := by
    rw [Nat.div_lt_iff_lt_mul (by omega : 0 < qx)]
    have : qy * qx = n := by rw [hn_def]; ring
    omega
  have hmodx : x % tw < tw := Nat.mod_lt x htw
  have hmody : y % th < th := Nat.mod_lt y hth
  have hX : (u % qx) * tw + x % tw < w := by
    have h2 : (u % qx + 1) * tw ≤ qx * tw := Nat.mul_le_mul_right tw humod
    have h3 : (u % qx + 1) * tw = (u % qx) * tw + tw := by ring
    omega
  have hY : (u / qx) * th + y % th < h := by
    have h2 : (u / qx + 1) * th ≤ qy * th := Nat.mul_le_mul_right th hudiv
    have h3 : (u / qx + 1) * th = (u / qx) * th + th := by ring
    omega
  rw [hApx _ hX _ hY]
  have hXfacts := add_mul_div_mod (x % tw) (u % qx) tw htw hmodx
  have hYfacts := add_mul_div_mod (y % th) (u / qx) th hth hmody
  have hXcomm : (u % qx) * tw + x % tw = x % tw + (u % qx) * tw := by ring
  have hYcomm : (u / qx) * th + y % th = y % th + (u / qx) * th := by ring
  have hg2 : tileOfPx (tw, th) qx ((u % qx) * tw + x % tw)
      ((u / qx) * th + y % th) = u := by
    rw [tileOfPx]
    dsimp only
    rw [hYcomm, hYfacts.1, hXcomm, hXfacts.1]
    exact div_mul_add_mod u qx
  rw [hg2]
  rw [hXcomm, hXfacts.2, hYcomm, hYfacts.2]
  rw [hinv g hglt]
  rw [hgmod, hgdiv, div_mul_add_mod x tw, div_mul_add_mod y th]

/-- Witness for the amended C2: a 2 x 2 image, 1 x 1 tiles, the swap
permutation `[1, 0, 2, 3]`, which is its own inverse. -/
theorem c2_round_trip_amended_witness :
    (0 < img2x2.width ∧ 0 < img2x2.height ∧
      ([1, 0, 2, 3] : List ℕ).Perm
        (List.range ((img2x2.width / 1) * (img2x2.height / 1)))) ∧
    ∃ outA, rearrange_tiles img2x2 (1, 1) [1, 0, 2, 3] = .ok outA ∧
      ∃ outB, rearrange_tiles outA (1, 1) [1, 0, 2, 3] = .ok outB ∧
        Img.pixEq outB img2x2 :=
  ⟨⟨by norm_num [img2x2], by norm_num [img2x2], by decide⟩,
    c2_round_trip_amended img2x2 1 1 [1, 0, 2, 3] [1, 0, 2, 3]
      (by norm_num [img2x2]) (by norm_num [img2x2]) (one_dvd _) (one_dvd _)
      (by norm_num [img2x2]) (by decide) (by decide) (by decide)⟩

/-- C8 counterexample: `2 ^ 53 + 2` unit tiles pasted in one column.  The
code pastes tile `2 ^ 53 + 1` at row `int((2 ^ 53 + 1) / 1) = 2 ^ 53`
(float rounding), while the spec formula `i div tiles_per_row` places it at
row `2 ^ 53 + 1`; the two outputs differ at pixel `(0, 2 ^ 53 + 1)` (0 - the
blank background - versus 1 - the tile's pixel). -/
theorem c8_recompose_counterexample :
    (recompose_image tallImg (List.replicate (2 ^ 53 + 2) unitImg) 1).px
      0 (2 ^ 53 + 1) = 0 ∧
    (recomposeSpec tallImg (List.replicate (2 ^ 53 + 2) unitImg) 1).px
      0 (2 ^ 53 + 1) = 1 ∧
    ¬ Img.pixEq (recompose_image tallImg (List.replicate (2 ^ 53 + 2) unitImg) 1)
        (recomposeSpec tallImg (List.replicate (2 ^ 53 + 2) unitImg) 1) := by
  have hlen : (List.replicate (2 ^ 53 + 2) unitImg).length = 2 ^ 53 + 2 :=
    List.length_replicate _ _
  have hcode : (recompose_image tallImg (List.replicate (2 ^ 53 + 2) unitImg) 1).px
      0 (2 ^ 53 + 1) = 0 := by
    have hnc : ∀ k, k < (List.replicate (2 ^ 53 + 2) unitImg).length →
        coveredB ((List.replicate (2 ^ 53 + 2) unitImg).getD k dImg)
          (codeOff 1 (0 + k) ((List.replicate (2 ^ 53 + 2) unitImg).getD k dImg))
          0 (2 ^ 53 + 1) = false := by
      intro k hk
      rw [hlen] at hk
      rw [getD_replicate_of_lt unitImg _ k dImg hk, Nat.zero_add]
      have hoy : pyTrunc (roundFloat ((k : ℕ) : ℚ)) ≠ 2 ^ 53 + 1 := by
        rcases Nat.lt_or_ge k (2 ^ 53 + 1) with hlt | hge
        · rw [pyTrunc_roundFloat_natCast_le k (by omega)]
          omega
        · have hk2 : k = 2 ^ 53 + 1 := by omega
          rw [hk2, pyTrunc_roundFloat_2p53_add_one]
          omega
      rw [codeOff]
      have hdiv1 : ((k : ℕ) : ℚ) / ((1 : ℕ) : ℚ) = ((k : ℕ) : ℚ) := by norm_num
      rw [hdiv1, coveredB]
      apply decide_eq_false
      rintro ⟨h1, h2, h3, h4⟩
      simp only [unitImg, mul_one] at h3 h4
      omega
    rw [recompose_image,
      pasteLoop_px_not_covered (codeOff 1) (List.replicate (2 ^ 53 + 2) unitImg)
        _ 0 0 (2 ^ 53 + 1) hnc]
    rfl
  have hspec : (recomposeSpec tallImg (List.replicate (2 ^ 53 + 2) unitImg) 1).px
      0 (2 ^ 53 + 1) = 1 := by
    have hk : 2 ^ 53 + 1 < (List.replicate (2 ^ 53 + 2) unitImg).length := by
      rw [hlen]; omega
    have hgetD : (List.replicate (2 ^ 53 + 2) unitImg).getD (2 ^ 53 + 1) dImg
        = unitImg := getD_replicate_of_lt unitImg _ _ dImg (by omega)
    have hoffval : specOff 1 (0 + (2 ^ 53 + 1)) unitImg = (0, 2 ^ 53 + 1) := by
      rw [Nat.zero_add, specOff]
      rw [show unitImg.width = 1 from rfl, show unitImg.height = 1 from rfl]
      rw [Nat.mod_one, Nat.div_one, Nat.zero_mul, mul_one]
    have hcov : coveredB ((List.replicate (2 ^ 53 + 2) unitImg).getD
          (2 ^ 53 + 1) dImg)
        (specOff 1 (0 + (2 ^ 53 + 1))
          ((List.replicate (2 ^ 53 + 2) unitImg).getD (2 ^ 53 + 1) dImg))
        0 (2 ^ 53 + 1) = true := by
      rw [hgetD, hoffval, coveredB]
      apply decide_eq_true
      refine ⟨le_refl 0, ?_, le_refl _, ?_⟩
      · rw [show unitImg.width = 1 from rfl]; omega
      · rw [show unitImg.height = 1 from rfl]; omega
    have hlast : ∀ k2, 2 ^ 53 + 1 < k2 →
        k2 < (List.replicate (2 ^ 53 + 2) unitImg).length →
        coveredB ((List.replicate (2 ^ 53 + 2) unitImg).getD k2 dImg)
          (specOff 1 (0 + k2)
            ((List.replicate (2 ^ 53 + 2) unitImg).getD k2 dImg))
          0 (2 ^ 53 + 1) = false := by
      intro k2 h1 h2
      rw [hlen] at h2
      omega
    rw [recomposeSpec,
      pasteLoop_px_covered (specOff 1) (List.replicate (2 ^ 53 + 2) unitImg)
        _ 0 0 (2 ^ 53 + 1) (2 ^ 53 + 1) hk hcov hlast]
    rw [hgetD, hoffval]
    rfl
  refine ⟨hcode, hspec, ?_⟩
  rintro ⟨hw, hh, hp⟩
  have hwc : (recompose_image tallImg (List.replicate (2 ^ 53 + 2) unitImg) 1).width
      = 1 := by
    rw [recompose_image, pasteLoop_width]
    rfl
  have hhc : (recompose_image tallImg (List.replicate (2 ^ 53 + 2) unitImg) 1).height
      = 2 ^ 53 + 2 := by
    rw [recompose_image, pasteLoop_height]
    rfl
  have hcontra := hp 0 (by rw [hwc]; omega) (2 ^ 53 + 1) (by rw [hhc]; omega)
  rw [hcode, hspec] at hcontra
  exact absurd hcontra (by omega)

/-- C8 (amended): for positive `tiles_per_row` and at most `2 ^ 53` tiles
(far beyond any feasible image), `recompose_image` is literally equal to the
spec's recomposer (each tile at sequence position `i` pasted at
`(col * tile_width, row * tile_height)` with `row = i div tiles_per_row`,
`col = i mod tiles_per_row`, sizes read from the tile itself, position
depending only on `i`); moreover the output carries the reference image's
mode and pixel dimensions. -/
theorem c8_recompose_amended (src : Img) (tiles : List Img) (tbr : ℕ)
    (htbr : 0 < tbr) (hlen : tiles.length ≤ 2 ^ 53) :
    recompose_image src tiles tbr = recomposeSpec src tiles tbr ∧
    (recompose_image src tiles tbr).mode = src.mode ∧
    (recompose_image src tiles tbr).width = src.width ∧
    (recompose_image src tiles tbr).height = src.height := by
  refine ⟨?_, ?_, ?_, ?_⟩
  · rw [recompose_image, recomposeSpec]
    apply pasteLoop_congr
    intro k hk
    rw [Nat.zero_add, codeOff, specOff]
    rw [pyTrunc_roundFloat_div k tbr htbr (by omega)]
  · rw [recompose_image, pasteLoop_mode]
    rfl
  · rw [recompose_image, pasteLoop_width]
    rfl
  · rw [recompose_image, pasteLoop_height]
    rfl

/-- Witness for the amended C8: one unit tile on a unit reference image. -/
theorem c8_recompose_amended_witness :
    ((0:ℕ) < 1 ∧ ([unitImg] : List Img).length ≤ 2 ^ 53) ∧
    (recompose_image unitImg [unitImg] 1 = recomposeSpec unitImg [unitImg] 1 ∧
     (recompose_image unitImg [unitImg] 1).mode = unitImg.mode ∧
     (recompose_image unitImg [unitImg] 1).width = unitImg.width ∧
     (recompose_image unitImg [unitImg] 1).height = unitImg.height) :=
  ⟨⟨by norm_num, by norm_num⟩,
    c8_recompose_amended unitImg [unitImg] 1 (by norm_num) (by norm_num)⟩
